import Mathlib

/-!
# g10/textfilter.c — the canonical-text filter of GnuPG

A shallow embedding of `len_without_trailing_ws`, `standard`, `clearsign` and
`text_filter`, followed by theorems about them.

Conventions of the embedding.

* A byte is a `Nat`; the code only compares bytes with the constants
  `'\n'` = 10, `'\r'` = 13, `'\t'` = 9, `' '` = 32, `'-'` = 45, NUL = 0 and the
  five bytes of `"From "`.
* The output buffer `buf` is written only through `buf[len++] = c`, so it is
  modelled by the list of bytes written so far: `buf[0 .. len)`, with
  `len = buf.length`.
* The line cache `tfx->buffer` is modelled by the list of its valid bytes;
  `buffer_len` and `buffer_pos` are kept as separate numbers, as in the struct.
* `md_write` and `md_putc` are recorded as the bytes handed to the handle
  `tfx->md`, in order; the flag `md` of the context says whether the handle is
  non-NULL.
-/

namespace TextFilter

/-! ## Data model -/

/-- The constant MAX_LINELEN of textfilter.c. -/
def MAX_LINELEN : Nat := 19995

/-- Modelled from the spec: the upstream line source behind `iobuf_read_line`
(iobuf.c is not part of the sources at hand). The source is the list of the
results its next reads will give: the bytes of the line, and whether the read
zeroes the max-length parameter (the line was truncated). A read pops the head
of the list; an entry with no bytes, and the exhausted list, are reads that
return 0, the end-of-stream report. -/
abbrev IOBUF := List (List Nat × Bool)

/-- The struct text_filter_context_t, as far as textfilter.c uses it.
`buffer_size` (the allocation size of `buffer`) is not modelled; `truncated`
is a C `int`, a 32-bit two's-complement integer (see `int_incr`). -/
structure text_filter_context_t where
  buffer : List Nat
  buffer_len : Nat
  buffer_pos : Nat
  truncated : Int
  clearsign : Bool
  escape_from : Bool
  not_dash_escaped : Bool
  md : Bool
  pending_lf : Bool
  pending_esc : Bool
deriving DecidableEq, Repr

/-- What one call of `standard`, `clearsign` or `text_filter` leaves behind:
the return code, the bytes written to `buf`, the count stored in `*ret_len`,
the context, the line source, the bytes handed to `md_write` / `md_putc`
during the call, and (a ghost field) whether `iobuf_read_line` returned 0
during the call. -/
structure filter_result where
  rc : Int
  buf : List Nat
  ret_len : Nat
  tfx : text_filter_context_t
  a : IOBUF
  md : List Nat
  eof : Bool
deriving DecidableEq, Repr

/-- Modelled from the spec: the control codes of iobuf.h that `text_filter`
distinguishes (produce-data, release, describe); every other code falls
through the three tests. -/
inductive iobuf_control where
  | IOBUFCTRL_UNDERFLOW
  | IOBUFCTRL_FREE
  | IOBUFCTRL_DESC
  | IOBUFCTRL_OTHER
deriving DecidableEq, Repr

/-- Modelled from the spec: a filter context as its owner creates it, zeroed
and then configured (cursor = length = 0, no pending escape, no pending
newline, no truncated line). -/
def text_filter_new (clearsign escape_from not_dash_escaped md : Bool) :
    text_filter_context_t :=
  { buffer := [], buffer_len := 0, buffer_pos := 0, truncated := 0,
    clearsign := clearsign, escape_from := escape_from,
    not_dash_escaped := not_dash_escaped, md := md,
    pending_lf := false, pending_esc := false }

/-! ## len_without_trailing_ws -/

/-- The C library `strchr (s, c) != NULL` for a byte `c`: the terminating NUL
counts as part of the string, so `c = 0` is found in every string. -/
def strchr (s : List Nat) (c : Nat) : Bool :=
  (s ++ [0]).contains c

/-- The string literal `" \t\r\n"`. -/
def ws_chars : List Nat := [32, 9, 13, 10]

/-- The `for` loop of `len_without_trailing_ws`: the first argument is the
number of iterations left (`len - n`), then `n` and `mark` (as an offset from
`line`, `none` for NULL). -/
def len_without_trailing_ws_loop (line : List Nat) :
    Nat → Nat → Option Nat → Option Nat
  | 0, _, mark => mark
  | k + 1, n, mark =>
    if strchr ws_chars (line.getD n 0) then
      len_without_trailing_ws_loop line k (n + 1) (if mark.isNone then some n else mark)
    else
      len_without_trailing_ws_loop line k (n + 1) none

/-- The function `len_without_trailing_ws (line, len)`. -/
def len_without_trailing_ws (line : List Nat) (len : Nat) : Nat :=
  match len_without_trailing_ws_loop line len 0 none with
  | some mark => mark
  | none => len

/-- The bytes the spec calls trailing whitespace: space, tab, CR, LF. -/
def is_ws (c : Nat) : Bool :=
  c = 32 || c = 9 || c = 13 || c = 10

/-- Modelled from the spec: `trim_trailing_ws` (util/strgutil.c, not part of
the sources at hand): the length of `line[0 .. len)` once its trailing
whitespace (space, tab, CR, LF) is trimmed. -/
def trim_trailing_ws (line : List Nat) (len : Nat) : Nat :=
  ((line.take len).rdropWhile is_ws).length

/-! ## The two transducers -/

/-- The copy loop `while( len < size && buffer_pos < buffer_len )
buf[len++] = buffer[buffer_pos++];`. The first argument is `size - len`;
the result is the new `buffer_pos` and the new `buf`. -/
def drain (buffer : List Nat) (buffer_len : Nat) :
    Nat → Nat → List Nat → Nat × List Nat
  | 0, pos, buf => (pos, buf)
  | room + 1, pos, buf =>
    if pos < buffer_len then
      drain buffer buffer_len room (pos + 1) (buf ++ [buffer.getD pos 0])
    else (pos, buf)

/-- The largest value of a C `int` (32 bits). -/
def INT_MAX : Int := 2147483647

/-- The smallest value of a C `int` (32 bits). -/
def INT_MIN : Int := -2147483648

/-- An integer brought back into the range of a 32-bit two's-complement
`int`: explicit arithmetic modulo 2^32. -/
def int_wrap (x : Int) : Int :=
  (x + 2147483648) % 4294967296 - 2147483648

/-- The statement `tfx->truncated++` on a C `int`. Past `INT_MAX` the
increment overflows (undefined in ISO C); the model takes the
two's-complement result, `INT_MIN`. -/
def int_incr (x : Int) : Int :=
  int_wrap (x + 1)

/-- Lines 80-85 and 127-134: `buffer_pos = 0`, the line read becomes the
cache, `buffer_len` its length, and `truncated++` is executed when the read
zeroed `maxlen`. -/
def read_line (tfx : text_filter_context_t) (line : List Nat) (trunc : Bool) :
    text_filter_context_t :=
  { tfx with
    buffer_pos := 0, buffer := line, buffer_len := line.length,
    truncated := if trunc then int_incr tfx.truncated else tfx.truncated }

/-- Lines 91-96 of `standard`, for a line of at least one byte already in the
cache: note the final byte, trim, and store CR LF behind the trimmed bytes
when the line ended in a line-feed. -/
def standard_fix_line (tfx : text_filter_context_t) : text_filter_context_t :=
  let lf_seen := tfx.buffer.getD (tfx.buffer_len - 1) 0 == 10
  let n := trim_trailing_ws tfx.buffer tfx.buffer_len
  if lf_seen then
    { tfx with buffer := tfx.buffer.take n ++ [13] ++ [10], buffer_len := n + 1 + 1 }
  else
    { tfx with buffer_len := n }

/-- The `while( !rc && len < size )` loop of `standard`, `size` being the
capacity less the two reserved bytes. `rc` is 0 at every test of the loop
condition (it is set only right before the `break`), and the `continue`
taken when `len >= size` leads to a failing test, so both leave the loop. -/
def standard_loop (size : Nat) :
    IOBUF → text_filter_context_t → List Nat → filter_result
  | [], tfx, buf =>
    if buf.length < size then
      let d := drain tfx.buffer tfx.buffer_len (size - buf.length) tfx.buffer_pos buf
      if size ≤ d.2.length then
        ⟨0, d.2, d.2.length, { tfx with buffer_pos := d.1 }, [], [], false⟩
      else
        -- iobuf_read_line returns 0
        ⟨if d.2.length = 0 then -1 else 0, d.2, d.2.length,
          read_line tfx [] false, [], [], true⟩
    else ⟨0, buf, buf.length, tfx, [], [], false⟩
  | (line, trunc) :: rest, tfx, buf =>
    if buf.length < size then
      let d := drain tfx.buffer tfx.buffer_len (size - buf.length) tfx.buffer_pos buf
      if size ≤ d.2.length then
        ⟨0, d.2, d.2.length, { tfx with buffer_pos := d.1 }, (line, trunc) :: rest, [], false⟩
      else if line.length = 0 then
        ⟨if d.2.length = 0 then -1 else 0, d.2, d.2.length,
          read_line tfx line trunc, rest, [], true⟩
      else
        standard_loop size rest (standard_fix_line (read_line tfx line trunc)) d.2
    else ⟨0, buf, buf.length, tfx, (line, trunc) :: rest, [], false⟩

/-- The function `standard`: the assertion `size > 10` (a failed assertion
aborts: `none`), two bytes reserved, then the loop from `len = 0`. -/
def standard (tfx : text_filter_context_t) (a : IOBUF) (size : Nat) :
    Option filter_result :=
  if 10 < size then some (standard_loop (size - 2) a tfx []) else none

/-- The string literal `"From "`. -/
def from_chars : List Nat := [70, 114, 111, 109, 32]

/-- Lines 116-120 of `clearsign`: a pending escape is written as `"- "` and
the flag is cleared. -/
def emit_esc (tfx : text_filter_context_t) (buf : List Nat) :
    text_filter_context_t × List Nat :=
  if tfx.pending_esc then ({ tfx with pending_esc := false }, buf ++ [45] ++ [32])
  else (tfx, buf)

/-- Lines 144-153 of `clearsign`, the end-of-stream branch: the synthesized
line-feed, its `md_putc`, the `pending_lf` flag and the return code. -/
def clearsign_eof (tfx : text_filter_context_t) (a : IOBUF) (buf md : List Nat) :
    filter_result :=
  let buf1 := if tfx.pending_lf then buf else buf ++ [10]
  let md1 := if tfx.pending_lf then md
    else if tfx.not_dash_escaped then md ++ [10] else md
  let tfx1 := if tfx.pending_lf then tfx else { tfx with pending_lf := true }
  ⟨if buf1.length = 0 then -1 else 0, buf1, buf1.length, tfx1, a, md1, true⟩

/-- Lines 155-165 of `clearsign`: what a fetched line `p[0 .. n)` in the
cache sends to the hash handle. -/
def clearsign_hash (tfx : text_filter_context_t) (md : List Nat) : List Nat :=
  let p := tfx.buffer
  let n := tfx.buffer_len
  if tfx.md then
    if tfx.not_dash_escaped then md ++ p.take n
    else
      let md1 := if tfx.pending_lf then md ++ [13] ++ [10] else md
      md1 ++ p.take (len_without_trailing_ws p n)
  else md

/-- Lines 166-172 of `clearsign`: the two flags set from a fetched line
`p[0 .. n)`, `n > 0`. -/
def clearsign_flags (tfx : text_filter_context_t) : text_filter_context_t :=
  let p := tfx.buffer
  let n := tfx.buffer_len
  let tfx1 := { tfx with pending_lf := p.getD (n - 1) 0 == 10 }
  if tfx1.not_dash_escaped then tfx1
  else if p.getD 0 0 == 45 then { tfx1 with pending_esc := true }
  else if tfx1.escape_from && decide (4 < n) && (p.take 5 == from_chars) then
    { tfx1 with pending_esc := true }
  else tfx1

/-- The `while( !rc && len < size )` loop of `clearsign`, `size` being the
capacity less the three reserved bytes; `md` collects the bytes hashed. -/
def clearsign_loop (size : Nat) :
    IOBUF → text_filter_context_t → List Nat → List Nat → filter_result
  | [], tfx, buf, md =>
    if buf.length < size then
      let e := emit_esc tfx buf
      let d := drain e.1.buffer e.1.buffer_len (size - e.2.length) e.1.buffer_pos e.2
      if size ≤ d.2.length then
        ⟨0, d.2, d.2.length, { e.1 with buffer_pos := d.1 }, [], md, false⟩
      else
        clearsign_eof (read_line e.1 [] false) [] d.2 md
    else ⟨0, buf, buf.length, tfx, [], md, false⟩
  | (line, trunc) :: rest, tfx, buf, md =>
    if buf.length < size then
      let e := emit_esc tfx buf
      let d := drain e.1.buffer e.1.buffer_len (size - e.2.length) e.1.buffer_pos e.2
      if size ≤ d.2.length then
        ⟨0, d.2, d.2.length, { e.1 with buffer_pos := d.1 }, (line, trunc) :: rest, md, false⟩
      else if line.length = 0 then
        clearsign_eof (read_line e.1 line trunc) rest d.2 md
      else
        let t := read_line e.1 line trunc
        clearsign_loop size rest (clearsign_flags t) d.2 (clearsign_hash t md)
    else ⟨0, buf, buf.length, tfx, (line, trunc) :: rest, md, false⟩

/-- The function `clearsign`: the assertion `size > 2`, three bytes reserved,
then the loop from `len = 0`. -/
def clearsign (tfx : text_filter_context_t) (a : IOBUF) (size : Nat) :
    Option filter_result :=
  if 2 < size then some (clearsign_loop (size - 3) a tfx [] []) else none

/-- The function `text_filter`; `size` is the value of `*ret_len` at entry.
The release request frees the line cache (the diagnostic about truncated
lines is not modelled), the describe request stores a label and no byte. -/
def text_filter (tfx : text_filter_context_t) (control : iobuf_control)
    (a : IOBUF) (size : Nat) : Option filter_result :=
  match control with
  | .IOBUFCTRL_UNDERFLOW =>
    if tfx.clearsign then clearsign tfx a size else standard tfx a size
  | .IOBUFCTRL_FREE => some ⟨0, [], size, { tfx with buffer := [] }, a, [], false⟩
  | .IOBUFCTRL_DESC => some ⟨0, [], size, tfx, a, [], false⟩
  | .IOBUFCTRL_OTHER => some ⟨0, [], size, tfx, a, [], false⟩

/-! ## The caller's pull loop -/

/-- What a whole run leaves behind: all output bytes, all hashed bytes, the
last context and line source. -/
structure run_result where
  out : List Nat
  md : List Nat
  tfx : text_filter_context_t
  a : IOBUF
deriving DecidableEq, Repr

/-- Produce-data requests with capacity `size`, repeated until one returns the
end-of-stream sentinel -1; the bytes of all calls are concatenated. `none`
when an assertion fails or when the sentinel has not come after `fuel`
calls. -/
def run_filter (size : Nat) :
    Nat → text_filter_context_t → IOBUF → Option run_result
  | 0, _, _ => none
  | fuel + 1, tfx, a =>
    match text_filter tfx .IOBUFCTRL_UNDERFLOW a size with
    | none => none
    | some r =>
      if r.rc = -1 then some ⟨r.buf, r.md, r.tfx, r.a⟩
      else
        match run_filter size fuel r.tfx r.a with
        | none => none
        | some k => some ⟨r.buf ++ k.out, r.md ++ k.md, k.tfx, k.a⟩

/-! ## Reference functions, written from the wording of the specification -/

/-- A canonical line: the line without its trailing whitespace (space, tab,
CR, LF), followed by CR LF exactly when the line ended in a line-feed. -/
def std_line (l : List Nat) : List Nat :=
  l.rdropWhile is_ws ++ (if l.getLast? = some 10 then [13, 10] else [])

/-- The canonical text of a sequence of source lines. -/
def std_text (a : IOBUF) : List Nat :=
  a.flatMap (fun e => std_line e.1)

/-- The bytes of the line cache that are still to be copied out. -/
def cache_rest (tfx : text_filter_context_t) : List Nat :=
  (tfx.buffer.take tfx.buffer_len).drop tfx.buffer_pos

/-- The line cache does not claim more bytes than it holds. -/
def cache_ok (tfx : text_filter_context_t) : Prop :=
  tfx.buffer_len ≤ tfx.buffer.length

/-- Every read of the source before its end returns at least one byte. -/
def lines_ok (a : IOBUF) : Prop :=
  ∀ e ∈ a, e.1 ≠ []

/-- Two contexts with the same configuration: mode, escape_from,
not_dash_escaped and hash handle. -/
def same_config (s t : text_filter_context_t) : Prop :=
  s.clearsign = t.clearsign ∧ s.escape_from = t.escape_from ∧
  s.not_dash_escaped = t.not_dash_escaped ∧ s.md = t.md

/-- The relation between a call and the bytes still to come. `P` gives the
output bytes and `H` the hashed bytes that a context and a source still owe;
the call started with `buf` written and `md` hashed, and ended in `r`. -/
structure good_call (P H : text_filter_context_t → IOBUF → List Nat)
    (tfx : text_filter_context_t) (a : IOBUF) (buf md : List Nat)
    (r : filter_result) : Prop where
  out_eq : r.buf ++ P r.tfx r.a = buf ++ P tfx a
  md_eq : r.md ++ H r.tfx r.a = md ++ H tfx a
  cache : cache_ok r.tfx
  lines : lines_ok r.a
  config : same_config r.tfx tfx
  rc01 : r.rc = 0 ∨ r.rc = -1
  at_eof : r.rc = -1 → r.buf = [] ∧ P r.tfx r.a = [] ∧ H r.tfx r.a = []
  progress : r.rc = 0 → r.buf ≠ []
  count : r.ret_len = r.buf.length

/-- Standard mode: the output bytes a context and a source still owe. -/
def std_pending (tfx : text_filter_context_t) (a : IOBUF) : List Nat :=
  cache_rest tfx ++ std_text a

/-- Standard mode hashes nothing. -/
def std_pending_md (_ : text_filter_context_t) (_ : IOBUF) : List Nat := []

/-- The escaping rule in the words of the specification: a line is
dash-escaped when not_dash_escaped is off and either its first byte is `-` or
escape_from is on and the line has at least 5 bytes and begins with
`"From "`. -/
def dash_escaped (escape_from not_dash_escaped : Bool) (l : List Nat) : Bool :=
  !not_dash_escaped &&
    (decide (l.head? = some 45) ||
      (escape_from && decide (5 ≤ l.length) && decide (l.take 5 = from_chars)))

/-- What a source line contributes to the clearsign output: `"- "` when the
line is dash-escaped, then the bytes of the line as they are. -/
def cs_line (escape_from not_dash_escaped : Bool) (l : List Nat) : List Nat :=
  (if dash_escaped escape_from not_dash_escaped l then [45, 32] else []) ++ l

/-- The clearsign output of a sequence of source lines, without the
synthesized final line-feed. -/
def cs_text (escape_from not_dash_escaped : Bool) (a : IOBUF) : List Nat :=
  a.flatMap (fun e => cs_line escape_from not_dash_escaped e.1)

/-- Whether a line ends in a line-feed. -/
def ends_lf (l : List Nat) : Bool :=
  decide (l.getLast? = some 10)

/-- The value of `pending_lf` once the lines of `a` have been fetched,
starting from the value `plf`. -/
def last_lf : Bool → IOBUF → Bool
  | plf, [] => plf
  | _, e :: rest => last_lf (ends_lf e.1) rest

/-- What fetching one line sends to the hash handle: nothing without a
handle; the line as it is when not_dash_escaped is on; otherwise CR LF when
the line before ended in a line-feed, then the line up to
`len_without_trailing_ws`. -/
def cs_hash_line (md not_dash_escaped plf : Bool) (l : List Nat) : List Nat :=
  if md then
    if not_dash_escaped then l
    else (if plf then [13, 10] else []) ++ l.take (len_without_trailing_ws l l.length)
  else []

/-- What fetching the lines of `a` sends to the hash handle, `plf` being the
value of `pending_lf` before the first of them. -/
def cs_hash_lines (md not_dash_escaped : Bool) : Bool → IOBUF → List Nat
  | _, [] => []
  | plf, e :: rest =>
    cs_hash_line md not_dash_escaped plf e.1 ++
      cs_hash_lines md not_dash_escaped (ends_lf e.1) rest

/-- Clearsign mode: the output bytes a context and a source still owe: a
pending escape, the rest of the cache, the lines to come, and the
synthesized line-feed when the last line leaves `pending_lf` off. -/
def cs_pending (tfx : text_filter_context_t) (a : IOBUF) : List Nat :=
  (if tfx.pending_esc then [45, 32] else []) ++
    (cache_rest tfx ++
      (cs_text tfx.escape_from tfx.not_dash_escaped a ++
        (if last_lf tfx.pending_lf a then [] else [10])))

/-- Clearsign mode: the hashed bytes a context and a source still owe. -/
def cs_pending_md (tfx : text_filter_context_t) (a : IOBUF) : List Nat :=
  cs_hash_lines tfx.md tfx.not_dash_escaped tfx.pending_lf a ++
    (if last_lf tfx.pending_lf a then []
      else if tfx.not_dash_escaped then [10] else [])

/-- The output bytes a context and a source still owe, in either mode. -/
def pending_out (tfx : text_filter_context_t) (a : IOBUF) : List Nat :=
  if tfx.clearsign then cs_pending tfx a else std_pending tfx a

/-- The hashed bytes a context and a source still owe, in either mode. -/
def pending_md (tfx : text_filter_context_t) (a : IOBUF) : List Nat :=
  if tfx.clearsign then cs_pending_md tfx a else []

/-- A capacity with which a call can make progress: more than 10 bytes in
standard mode, more than 3 bytes in clearsign mode. -/
def size_ok (clearsign : Bool) (size : Nat) : Prop :=
  if clearsign then 3 < size else 10 < size

/-- The input is empty or its last line does not end in a line-feed. -/
def needs_final_lf (a : IOBUF) : Bool :=
  match a.getLast? with
  | none => true
  | some e => !ends_lf e.1

/-- The complete output of a fresh filter on the lines of `a`: in standard
mode the canonical text, in clearsign mode the lines with their escapes and
the synthesized final line-feed. -/
def full_output (clearsign escape_from not_dash_escaped : Bool) (a : IOBUF) :
    List Nat :=
  if clearsign then
    cs_text escape_from not_dash_escaped a ++ (if needs_final_lf a then [10] else [])
  else std_text a

/-- The complete hash input of a fresh filter on the lines of `a`: nothing in
standard mode; in clearsign mode what the fetched lines send, and one more
line-feed when a final line-feed is synthesized with not_dash_escaped on. -/
def full_md (clearsign not_dash_escaped md : Bool) (a : IOBUF) : List Nat :=
  if clearsign then
    cs_hash_lines md not_dash_escaped false a ++
      (if needs_final_lf a && not_dash_escaped then [10] else [])
  else []

/-- Successive produce-data calls, one for each capacity of the list: the
return code, the bytes written and the bytes hashed by each call (the list
stops at a failed assertion). -/
def call_seq : List Nat → text_filter_context_t → IOBUF →
    List (Int × List Nat × List Nat)
  | [], _, _ => []
  | size :: sizes, tfx, a =>
    match text_filter tfx .IOBUFCTRL_UNDERFLOW a size with
    | none => []
    | some r => (r.rc, r.buf, r.md) :: call_seq sizes r.tfx r.a

/-- The two source lines `"hello   \n"` and `"world"`. -/
def hello_world : IOBUF :=
  [([104, 101, 108, 108, 111, 32, 32, 32, 10], false), ([119, 111, 114, 108, 100], false)]

/-- The source line `"-----BEGIN"`. -/
def begin_line : List Nat := [45, 45, 45, 45, 45, 66, 69, 71, 73, 78]

/-- The source line `"world"`, without a line-feed. -/
def world_line : List Nat := [119, 111, 114, 108, 100]

/-- The hash input the specification gives for a fetched line in
non-verbatim mode: CR LF when the line before ended in a line-feed, then the
line with its trailing whitespace (space, tab, CR, LF) stripped. -/
def spec_hash_line (plf : Bool) (l : List Nat) : List Nat :=
  (if plf then [13, 10] else []) ++ l.rdropWhile is_ws

/-- The next read of the source reports end-of-stream: the source is
exhausted, or its next read returns no byte. -/
def next_read_eof (a : IOBUF) : Prop :=
  ∀ e ∈ a.head?, e.1 = []

/-- What every produce-data call satisfies, whatever the context and the
source: the return code is 0 or -1, it is -1 exactly when the source reported
end-of-stream during the call and the call wrote no byte, and a call that met
end-of-stream leaves an empty line cache, the mode flag as it was and, in
clearsign mode, `pending_lf` on and `pending_esc` off. -/
structure rc_facts (tfx : text_filter_context_t) (cs : Bool) (buf : List Nat)
    (r : filter_result) : Prop where
  rc01 : r.rc = 0 ∨ r.rc = -1
  neg : r.rc = -1 ↔ (r.eof = true ∧ r.buf = [])
  mode : r.tfx.clearsign = tfx.clearsign
  eof_cache : r.eof = true → r.tfx.buffer_len = 0 ∧ r.tfx.buffer_pos = 0
  eof_flags : r.eof = true → cs = true →
    r.tfx.pending_lf = true ∧ r.tfx.pending_esc = false
  grows : buf ≠ [] → r.buf ≠ []

/-- The result of the first produce-data call (capacity 100) of a fresh
clearsign filter on the single line `"a"`: the line and the synthesized
line-feed, return code 0, end-of-stream met. -/
def one_line_call : filter_result :=
  ⟨0, [97, 10], 2, { text_filter_new true false false true with pending_lf := true },
    [], [97], true⟩

/-- The byte string `"hello   \nworld"`. -/
def hello_bytes : List Nat :=
  [104, 101, 108, 108, 111, 32, 32, 32, 10, 119, 111, 114, 108, 100]

/-- Modelled from the spec: how the line source cuts a byte string into
lines, a line being the bytes up to and including a line-feed, or what is
left at the end of the stream. The first argument holds the bytes of the
line being collected. -/
def split_lines_from : List Nat → List Nat → List (List Nat)
  | cur, [] => if cur = [] then [] else [cur]
  | cur, c :: s =>
    if c = 10 then (cur ++ [10]) :: split_lines_from [] s
    else split_lines_from (cur ++ [c]) s

/-- The lines of a byte string. -/
def split_lines (s : List Nat) : List (List Nat) :=
  split_lines_from [] s

/-- The line source that delivers the lines of a byte string, none of them
truncated. -/
def source_of (s : List Nat) : IOBUF :=
  (split_lines s).map (fun l => (l, false))

/-- The canonical form of a byte string: the canonical text of its lines. -/
def canon (s : List Nat) : List Nat :=
  std_text (source_of s)

/-- A list of lines as the line source delivers them: no line is empty, a
line has no line-feed before its last byte, and every line but the last ends
in a line-feed. -/
def proper_lines : List (List Nat) → Prop
  | [] => True
  | l :: rest =>
    l ≠ [] ∧ 10 ∉ l.dropLast ∧ (rest ≠ [] → l.getLast? = some 10) ∧ proper_lines rest

/-- The canonical lines of a list of lines, an empty one left out. -/
def canon_lines (ls : List (List Nat)) : List (List Nat) :=
  (ls.map std_line).filter (fun l => !l.isEmpty)

/-- The invariant of the loop of `len_without_trailing_ws` after `n` bytes:
`mark` is NULL when the first `n` bytes do not end in a byte that `strchr`
finds, and otherwise points to the start of the run of such bytes that ends
the first `n` bytes. -/
def mark_ok (line : List Nat) (n : Nat) : Option Nat → Prop
  | none => ((line.take n).rdropWhile (strchr ws_chars)).length = n
  | some m => m = ((line.take n).rdropWhile (strchr ws_chars)).length ∧ m < n

/-- The number of reads, among those of `a`, in which the source zeroed the
max-length parameter. -/
def trunc_count (a : IOBUF) : Nat :=
  a.countP (fun e => e.2)

/-- The counter after `n` executions of `truncated++`, starting from `x`. -/
def incr_times : Nat → Int → Int
  | 0, x => x
  | n + 1, x => incr_times n (int_incr x)

/-- Two contexts that agree on everything but the line cache and the
truncation counter: mode, escape_from, not_dash_escaped, hash handle,
pending_lf and pending_esc. -/
def same_flags (s t : text_filter_context_t) : Prop :=
  s.clearsign = t.clearsign ∧ s.escape_from = t.escape_from ∧
  s.not_dash_escaped = t.not_dash_escaped ∧ s.md = t.md ∧
  s.pending_lf = t.pending_lf ∧ s.pending_esc = t.pending_esc

/-- What a loop of `standard` or `clearsign` guarantees for every context and
every source: `size` is the working size of the loop, `bound` the largest
`len` it can reach when it starts below `size`, `buf` the bytes written when
it starts and `r` what it leaves behind. -/
structure call_facts (size bound : Nat) (tfx : text_filter_context_t) (a : IOBUF)
    (buf : List Nat) (r : filter_result) : Prop where
  count : r.ret_len = r.buf.length
  within : r.buf.length ≤ max buf.length bound
  cursor : tfx.buffer_pos ≤ tfx.buffer_len → r.tfx.buffer_pos ≤ r.tfx.buffer_len
  reads : ∃ pre, a = pre ++ r.a ∧
    r.tfx.truncated = incr_times (trunc_count pre) tfx.truncated
  progress : 0 < size → r.rc = 0 → r.buf ≠ []

/-- The source `a` with no read flagged as truncated. -/
def untrunc (a : IOBUF) : IOBUF :=
  a.map (fun e => (e.1, false))

/-- A context with its truncation counter put back to 0. -/
def clear_truncated (t : text_filter_context_t) : text_filter_context_t :=
  { t with truncated := 0 }

/-- A result in which the truncation counter and the truncation flags of the
source are left out of account. -/
def clear_result (r : filter_result) : filter_result :=
  { r with tfx := clear_truncated r.tfx, a := untrunc r.a }

/-- The context and the source after successive produce-data calls, one for
each capacity of the list (stopping at a failed assertion). -/
def after_calls : List Nat → text_filter_context_t → IOBUF →
    text_filter_context_t × IOBUF
  | [], tfx, a => (tfx, a)
  | size :: sizes, tfx, a =>
    match text_filter tfx .IOBUFCTRL_UNDERFLOW a size with
    | none => (tfx, a)
    | some r => after_calls sizes r.tfx r.a

/-- A clearsign context in the middle of a line: the cache holds `"-ab\n"`
with one byte already copied out, and two earlier lines were truncated. -/
def mid_line_context : text_filter_context_t :=
  { buffer := [45, 97, 98, 10], buffer_len := 4, buffer_pos := 1, truncated := 2,
    clearsign := true, escape_from := true, not_dash_escaped := false, md := true,
    pending_lf := true, pending_esc := false }

/-- A standard-mode context in the middle of a line, with every flag that
standard mode does not use switched on. -/
def std_mid_context : text_filter_context_t :=
  { buffer := [97, 98, 13, 10], buffer_len := 4, buffer_pos := 1, truncated := 0,
    clearsign := false, escape_from := true, not_dash_escaped := true, md := true,
    pending_lf := true, pending_esc := true }

/-- A fresh standard-mode context whose truncation counter has reached
`INT_MAX`. -/
def full_counter_context : text_filter_context_t :=
  { text_filter_new false false false false with truncated := 2147483647 }

/-! ## Lemmas on the copy loop and the refill -/

theorem drain_eq (buffer : List Nat) (blen : Nat) (h : blen ≤ buffer.length) :
    ∀ room pos buf, drain buffer blen room pos buf =
      (pos + min room (blen - pos),
        buf ++ (((buffer.take blen).drop pos).take room)) := by
  intro room
  induction room with
  | zero => intro pos buf; simp [drain]
  | succ room ih =>
    intro pos buf
    unfold drain
    split
    · rename_i hp
      rw [ih]
      have hlen : pos < (buffer.take blen).length := by
        simp only [List.length_take]; omega
      rw [List.drop_eq_getElem_cons hlen]
      have hg : buffer.getD pos 0 = (buffer.take blen)[pos] := by
        rw [List.getElem_take]
        exact List.getD_eq_getElem _ _ (by omega)
      simp only [List.take_succ_cons, hg, List.append_assoc, List.singleton_append]
      congr 1
      omega
    · rename_i hp
      have hd : (buffer.take blen).drop pos = [] := by
        apply List.drop_eq_nil_of_le
        simp only [List.length_take]; omega
      simp [hd]
      omega

theorem drain_grows (buffer : List Nat) (blen : Nat) :
    ∀ room pos buf, buf.length ≤ (drain buffer blen room pos buf).2.length := by
  intro room
  induction room with
  | zero => intro pos buf; exact Nat.le_refl _
  | succ room ih =>
    intro pos buf
    unfold drain
    split
    · have := ih (pos + 1) (buf ++ [buffer.getD pos 0])
      simp only [List.length_append, List.length_singleton] at this
      omega
    · exact Nat.le_refl _

theorem drain_cache (tfx : text_filter_context_t) (h : cache_ok tfx)
    (room : Nat) (buf : List Nat) :
    ∃ p, drain tfx.buffer tfx.buffer_len room tfx.buffer_pos buf =
        (p, buf ++ (cache_rest tfx).take room) ∧
      cache_rest { tfx with buffer_pos := p } = (cache_rest tfx).drop room := by
  refine ⟨_, drain_eq tfx.buffer tfx.buffer_len h room tfx.buffer_pos buf, ?_⟩
  unfold cache_rest
  rw [List.drop_drop]
  have hl : (tfx.buffer.take tfx.buffer_len).length = tfx.buffer_len := by
    simp only [List.length_take]; exact Nat.min_eq_left h
  show List.drop (tfx.buffer_pos + min room (tfx.buffer_len - tfx.buffer_pos))
      (tfx.buffer.take tfx.buffer_len) =
    List.drop (tfx.buffer_pos + room) (tfx.buffer.take tfx.buffer_len)
  by_cases hr : room ≤ tfx.buffer_len - tfx.buffer_pos
  · rw [Nat.min_eq_left hr]
  · rw [List.drop_eq_nil_of_le, List.drop_eq_nil_of_le] <;> rw [hl] <;> omega

theorem getD_last (l : List Nat) (h : l ≠ []) :
    (l.getD (l.length - 1) 0 == 10) = decide (l.getLast? = some 10) := by
  have hl : 0 < l.length := List.length_pos.mpr h
  rw [List.getLast?_eq_getLast _ h, List.getLast_eq_getElem,
    List.getD_eq_getElem _ _ (by omega)]
  by_cases hx : l[l.length - 1] = 10 <;> simp [hx]

theorem take_trim (l : List Nat) :
    l.take (trim_trailing_ws l l.length) = l.rdropWhile is_ws := by
  unfold trim_trailing_ws
  rw [List.take_length]
  exact (List.prefix_iff_eq_take.mp (List.rdropWhile_prefix is_ws l)).symm

theorem trim_le (l : List Nat) : trim_trailing_ws l l.length ≤ l.length := by
  unfold trim_trailing_ws
  rw [List.take_length]
  exact (List.rdropWhile_prefix is_ws l).length_le

theorem standard_fix_line_cache (tfx : text_filter_context_t) (line : List Nat)
    (trunc : Bool) (h : line ≠ []) :
    cache_rest (standard_fix_line (read_line tfx line trunc)) = std_line line ∧
    cache_ok (standard_fix_line (read_line tfx line trunc)) := by
  have ht := take_trim line
  have hle := trim_le line
  unfold standard_fix_line read_line cache_rest cache_ok std_line
  simp only [getD_last line h]
  by_cases hlf : line.getLast? = some 10
  · simp only [hlf, decide_True, if_true, List.drop_zero]
    rw [ht]
    have hlen : (line.rdropWhile is_ws).length = trim_trailing_ws line line.length := by
      rw [← ht, List.length_take]; omega
    constructor
    · rw [List.take_of_length_le]
      · simp
      · simp [hlen]
    · simp [hlen]
  · simp [hlf, ht, hle]

theorem lines_ok_cons {e : List Nat × Bool} {a : IOBUF} (h : lines_ok (e :: a)) :
    e.1 ≠ [] ∧ lines_ok a :=
  ⟨h e (List.mem_cons_self _ _), fun x hx => h x (List.mem_cons_of_mem _ hx)⟩

theorem lines_ok_nil : lines_ok [] :=
  fun _ h => (List.not_mem_nil _ h).elim

theorem same_config_refl (t : text_filter_context_t) : same_config t t :=
  ⟨rfl, rfl, rfl, rfl⟩

theorem same_config_trans {s t u : text_filter_context_t}
    (h1 : same_config s t) (h2 : same_config t u) : same_config s u :=
  ⟨h1.1.trans h2.1, h1.2.1.trans h2.2.1, h1.2.2.1.trans h2.2.2.1,
    h1.2.2.2.trans h2.2.2.2⟩

theorem read_line_config (t : text_filter_context_t) (l : List Nat) (tr : Bool) :
    same_config (read_line t l tr) t :=
  ⟨rfl, rfl, rfl, rfl⟩

theorem standard_fix_line_config (t : text_filter_context_t) :
    same_config (standard_fix_line t) t := by
  unfold standard_fix_line
  by_cases h : (t.buffer.getD (t.buffer_len - 1) 0 == 10) = true
  · simp only [h, if_true]; exact ⟨rfl, rfl, rfl, rfl⟩
  · simp only [h]; exact ⟨rfl, rfl, rfl, rfl⟩

theorem short_take {c : List Nat} {n m : Nat} (h : ¬ n ≤ m + (c.take (n - m)).length)
    (hm : m < n) : c.take (n - m) = c ∧ c.drop (n - m) = [] := by
  have hc : c.length < n - m := by
    by_contra hcon
    have : (c.take (n - m)).length = n - m := by
      rw [List.length_take]; omega
    omega
  exact ⟨List.take_of_length_le (by omega), List.drop_eq_nil_of_le (by omega)⟩

theorem ne_nil_of_len {l : List Nat} {n : Nat} (h : n ≤ l.length) (hn : 0 < n) :
    l ≠ [] := by
  intro hl
  rw [hl] at h
  simp at h
  omega

theorem eof_rc_cases (n : Nat) :
    (if n = 0 then (-1 : Int) else 0) = 0 ∨ (if n = 0 then (-1 : Int) else 0) = -1 := by
  split <;> simp

theorem eof_rc_neg {n : Nat} (h : (if n = 0 then (-1 : Int) else 0) = -1) : n = 0 := by
  split at h
  · assumption
  · simp at h

theorem eof_rc_zero {n : Nat} (h : (if n = 0 then (-1 : Int) else 0) = 0) : n ≠ 0 := by
  split at h
  · simp at h
  · assumption

/-! ## One call in standard mode -/

theorem standard_loop_good (size : Nat) (hs : 0 < size) :
    ∀ (a : IOBUF) (tfx : text_filter_context_t) (buf : List Nat),
      cache_ok tfx → lines_ok a →
      good_call std_pending std_pending_md tfx a buf []
        (standard_loop size a tfx buf) := by
  intro a
  induction a with
  | nil =>
    intro tfx buf hc _
    obtain ⟨p, hd, hp⟩ := drain_cache tfx hc (size - buf.length) buf
    unfold standard_loop
    by_cases hb : buf.length < size
    · simp only [hb, if_true, hd]
      by_cases hfull : size ≤ (buf ++ (cache_rest tfx).take (size - buf.length)).length
      · simp only [hfull, if_true]
        refine ⟨?_, rfl, hc, lines_ok_nil, same_config_refl _, Or.inl rfl,
          (fun h => by cases h), (fun _ => ne_nil_of_len hfull hs), rfl⟩
        simp only [std_pending, hp, List.append_assoc]
        rw [← List.append_assoc (List.take _ _), List.take_append_drop]
      · simp only [hfull, if_false]
        rw [List.length_append] at hfull
        obtain ⟨ht, _⟩ := short_take hfull hb
        rw [ht]
        have hcr : cache_rest (read_line tfx [] false) = [] := by
          simp [cache_rest, read_line]
        refine ⟨?_, rfl, (by simp [cache_ok, read_line]), lines_ok_nil,
          same_config_refl _, eof_rc_cases _,
          (fun h => ⟨List.length_eq_zero.mp (eof_rc_neg h), ?_, rfl⟩),
          (fun h hn => eof_rc_zero h (congrArg List.length hn)), rfl⟩
        · simp only [std_pending, hcr, std_text, List.flatMap_nil, List.append_nil,
            List.nil_append]
        · simp only [std_pending, hcr, std_text, List.flatMap_nil, List.append_nil]
    · simp only [hb, if_false]
      exact ⟨rfl, rfl, hc, lines_ok_nil, same_config_refl _, Or.inl rfl,
        (fun h => by cases h), (fun _ => ne_nil_of_len (Nat.le_of_not_lt hb) hs), rfl⟩
  | cons e rest ih =>
    intro tfx buf hc hl
    obtain ⟨line, trunc⟩ := e
    obtain ⟨hne, hrest⟩ := lines_ok_cons hl
    obtain ⟨p, hd, hp⟩ := drain_cache tfx hc (size - buf.length) buf
    unfold standard_loop
    by_cases hb : buf.length < size
    · simp only [hb, if_true, hd]
      by_cases hfull : size ≤ (buf ++ (cache_rest tfx).take (size - buf.length)).length
      · simp only [hfull, if_true]
        refine ⟨?_, rfl, hc, hl, same_config_refl _, Or.inl rfl,
          (fun h => by cases h), (fun _ => ne_nil_of_len hfull hs), rfl⟩
        simp only [std_pending, hp, List.append_assoc]
        rw [← List.append_assoc (List.take _ _), List.take_append_drop]
      · have hlen : ¬ line.length = 0 := fun h => hne (List.length_eq_zero.mp h)
        simp only [hfull, if_false, hlen]
        rw [List.length_append] at hfull
        obtain ⟨ht, _⟩ := short_take hfull hb
        rw [ht]
        obtain ⟨hcache, hok⟩ := standard_fix_line_cache tfx line trunc hne
        have g := ih (standard_fix_line (read_line tfx line trunc))
          (buf ++ cache_rest tfx) hok hrest
        refine ⟨?_, g.md_eq, g.cache, g.lines, same_config_trans g.config ?_, g.rc01,
          g.at_eof, g.progress, g.count⟩
        · rw [g.out_eq]
          simp only [std_pending, hcache, std_text, List.flatMap_cons, List.append_assoc]
        · exact same_config_trans (standard_fix_line_config _) (read_line_config _ _ _)
    · simp only [hb, if_false]
      exact ⟨rfl, rfl, hc, hl, same_config_refl _, Or.inl rfl,
        (fun h => by cases h), (fun _ => ne_nil_of_len (Nat.le_of_not_lt hb) hs), rfl⟩

/-! ## One call in clearsign mode -/

theorem emit_esc_eq (tfx : text_filter_context_t) (buf : List Nat) :
    emit_esc tfx buf = ({ tfx with pending_esc := false },
      buf ++ (if tfx.pending_esc then [45, 32] else [])) := by
  unfold emit_esc
  cases tfx with
  | mk b bl bp tr cs ef nde md plf pesc =>
    cases pesc <;> simp

theorem head_getD (l : List Nat) (h : l ≠ []) :
    (l.getD 0 0 == 45) = decide (l.head? = some 45) := by
  cases l with
  | nil => exact absurd rfl h
  | cons x xs => by_cases hx : x = 45 <;> simp [hx]

theorem clearsign_flags_eq (s : text_filter_context_t) (line : List Nat)
    (trunc : Bool) (h : line ≠ []) (hesc : s.pending_esc = false) :
    (clearsign_flags (read_line s line trunc)).pending_esc =
        dash_escaped s.escape_from s.not_dash_escaped line ∧
    (clearsign_flags (read_line s line trunc)).pending_lf = ends_lf line ∧
    cache_rest (clearsign_flags (read_line s line trunc)) = line ∧
    cache_ok (clearsign_flags (read_line s line trunc)) ∧
    same_config (clearsign_flags (read_line s line trunc)) s := by
  have h5 : decide (4 < line.length) = decide (5 ≤ line.length) := by
    by_cases hl : 4 < line.length
    · have : 5 ≤ line.length := hl
      simp [hl, this]
    · have : ¬ 5 ≤ line.length := hl
      simp [hl, this]
  have h6 : (line.take 5 == from_chars) = decide (line.take 5 = from_chars) := by
    by_cases hl : line.take 5 = from_chars <;> simp [hl]
  unfold clearsign_flags read_line dash_escaped ends_lf cache_rest cache_ok same_config
  simp only [getD_last line h, head_getD line h, h5, h6, hesc]
  cases hn : s.not_dash_escaped
  · by_cases h1 : line.head? = some 45
    · simp [h1]
    · by_cases h2 : (s.escape_from && decide (5 ≤ line.length) &&
          decide (line.take 5 = from_chars)) = true
      · simp only [h1, h2]; simp
      · simp only [h1, h2]; simp
  · simp

theorem clearsign_flags_mode (t : text_filter_context_t) :
    (clearsign_flags t).clearsign = t.clearsign := by
  unfold clearsign_flags
  simp only
  split
  · rfl
  · split
    · rfl
    · split <;> rfl

theorem clearsign_hash_eq (t : text_filter_context_t) (md : List Nat)
    (h : t.buffer_len = t.buffer.length) :
    clearsign_hash t md =
      md ++ cs_hash_line t.md t.not_dash_escaped t.pending_lf t.buffer := by
  unfold clearsign_hash cs_hash_line
  simp only [h, List.take_length]
  cases t.md <;> cases t.not_dash_escaped <;> cases t.pending_lf <;> simp

theorem clearsign_eof_fields (t : text_filter_context_t) (a : IOBUF)
    (buf md : List Nat) :
    (clearsign_eof t a buf md).buf = buf ++ (if t.pending_lf then [] else [10]) ∧
    (clearsign_eof t a buf md).md =
      md ++ (if t.pending_lf then [] else if t.not_dash_escaped then [10] else []) ∧
    (clearsign_eof t a buf md).tfx = { t with pending_lf := true } ∧
    (clearsign_eof t a buf md).a = a ∧
    (clearsign_eof t a buf md).rc =
      (if (clearsign_eof t a buf md).buf.length = 0 then -1 else 0) ∧
    (clearsign_eof t a buf md).ret_len = (clearsign_eof t a buf md).buf.length := by
  unfold clearsign_eof
  cases t with
  | mk b bl bp tr cs ef nde m plf pesc =>
    cases plf <;> cases nde <;> simp

theorem clearsign_eof_good (tfx : text_filter_context_t)
    (buf md : List Nat) (trunc : Bool) :
    good_call cs_pending cs_pending_md tfx [] buf md
      (clearsign_eof (read_line { tfx with pending_esc := false } [] trunc) []
        (buf ++ (if tfx.pending_esc then [45, 32] else []) ++ cache_rest tfx) md) := by
  obtain ⟨hbuf, hmd, htfx, ha, hrc, hcount⟩ :=
    clearsign_eof_fields (read_line { tfx with pending_esc := false } [] trunc) []
      (buf ++ (if tfx.pending_esc then [45, 32] else []) ++ cache_rest tfx) md
  have hP : cs_pending (clearsign_eof (read_line { tfx with pending_esc := false } [] trunc) []
      (buf ++ (if tfx.pending_esc then [45, 32] else []) ++ cache_rest tfx) md).tfx [] = [] := by
    rw [htfx]
    simp [cs_pending, cache_rest, read_line, cs_text, last_lf]
  have hH : cs_pending_md (clearsign_eof (read_line { tfx with pending_esc := false } [] trunc) []
      (buf ++ (if tfx.pending_esc then [45, 32] else []) ++ cache_rest tfx) md).tfx [] = [] := by
    rw [htfx]
    simp [cs_pending_md, cs_hash_lines, last_lf]
  refine ⟨?_, ?_, ?_, ?_, ?_, ?_, ?_, ?_, hcount⟩
  · rw [ha, hP, hbuf]
    simp [cs_pending, cs_text, last_lf, read_line]
  · rw [ha, hH, hmd]
    simp [cs_pending_md, cs_hash_lines, last_lf, read_line]
  · rw [htfx]; simp [cache_ok, read_line]
  · rw [ha]; exact lines_ok_nil
  · rw [htfx]; exact ⟨rfl, rfl, rfl, rfl⟩
  · rw [hrc]; exact eof_rc_cases _
  · intro h
    rw [hrc] at h
    rw [ha]
    exact ⟨List.length_eq_zero.mp (eof_rc_neg h), hP, hH⟩
  · intro h hn
    rw [hrc] at h
    exact eof_rc_zero h (congrArg List.length hn)

theorem cache_rest_esc (tfx : text_filter_context_t) (b : Bool) :
    cache_rest { tfx with pending_esc := b } = cache_rest tfx := rfl

theorem clearsign_loop_good (size : Nat) (hs : 0 < size) :
    ∀ (a : IOBUF) (tfx : text_filter_context_t) (buf md : List Nat),
      cache_ok tfx → lines_ok a →
      good_call cs_pending cs_pending_md tfx a buf md
        (clearsign_loop size a tfx buf md) := by
  intro a
  induction a with
  | nil =>
    intro tfx buf md hc _
    have hc1 : cache_ok { tfx with pending_esc := false } := hc
    obtain ⟨p, hd, hp⟩ := drain_cache { tfx with pending_esc := false } hc1
      (size - (buf ++ (if tfx.pending_esc then [45, 32] else [])).length)
      (buf ++ (if tfx.pending_esc then [45, 32] else []))
    rw [cache_rest_esc] at hd hp
    unfold clearsign_loop
    by_cases hb : buf.length < size
    · simp only [hb, if_true, emit_esc_eq, hd]
      by_cases hfull : size ≤ (buf ++ (if tfx.pending_esc then [45, 32] else []) ++
          (cache_rest tfx).take
            (size - (buf ++ (if tfx.pending_esc then [45, 32] else [])).length)).length
      · simp only [hfull, if_true]
        refine ⟨?_, rfl, hc, lines_ok_nil, ⟨rfl, rfl, rfl, rfl⟩, Or.inl rfl,
          (fun h => by cases h), (fun _ => ne_nil_of_len hfull hs), rfl⟩
        simp only [cs_pending, hp, List.append_assoc, Bool.false_eq_true, if_false,
          List.nil_append]
        rw [← List.append_assoc (List.take _ _), List.take_append_drop]
      · simp only [hfull, if_false]
        rw [List.length_append] at hfull
        obtain ⟨ht, _⟩ := short_take hfull (by omega)
        rw [ht]
        exact clearsign_eof_good tfx buf md false
    · simp only [hb, if_false]
      exact ⟨rfl, rfl, hc, lines_ok_nil, same_config_refl _, Or.inl rfl,
        (fun h => by cases h), (fun _ => ne_nil_of_len (Nat.le_of_not_lt hb) hs), rfl⟩
  | cons e rest ih =>
    intro tfx buf md hc hl
    obtain ⟨line, trunc⟩ := e
    obtain ⟨hne, hrest⟩ := lines_ok_cons hl
    have hc1 : cache_ok { tfx with pending_esc := false } := hc
    obtain ⟨p, hd, hp⟩ := drain_cache { tfx with pending_esc := false } hc1
      (size - (buf ++ (if tfx.pending_esc then [45, 32] else [])).length)
      (buf ++ (if tfx.pending_esc then [45, 32] else []))
    rw [cache_rest_esc] at hd hp
    unfold clearsign_loop
    by_cases hb : buf.length < size
    · simp only [hb, if_true, emit_esc_eq, hd]
      by_cases hfull : size ≤ (buf ++ (if tfx.pending_esc then [45, 32] else []) ++
          (cache_rest tfx).take
            (size - (buf ++ (if tfx.pending_esc then [45, 32] else [])).length)).length
      · simp only [hfull, if_true]
        refine ⟨?_, rfl, hc, hl, ⟨rfl, rfl, rfl, rfl⟩, Or.inl rfl,
          (fun h => by cases h), (fun _ => ne_nil_of_len hfull hs), rfl⟩
        simp only [cs_pending, hp, List.append_assoc, Bool.false_eq_true, if_false,
          List.nil_append]
        rw [← List.append_assoc (List.take _ _), List.take_append_drop]
      · have hlen : ¬ line.length = 0 := fun h => hne (List.length_eq_zero.mp h)
        simp only [hfull, if_false, hlen]
        rw [List.length_append] at hfull
        obtain ⟨ht, _⟩ := short_take hfull (by omega)
        rw [ht]
        obtain ⟨hesc, hplf, hcache, hok, hcfg⟩ :=
          clearsign_flags_eq { tfx with pending_esc := false } line trunc hne rfl
        have g := ih (clearsign_flags (read_line { tfx with pending_esc := false } line trunc))
          (buf ++ (if tfx.pending_esc then [45, 32] else []) ++ cache_rest tfx)
          (clearsign_hash (read_line { tfx with pending_esc := false } line trunc) md)
          hok hrest
        have hcfg2 : same_config
            (clearsign_flags (read_line { tfx with pending_esc := false } line trunc)) tfx :=
          hcfg
        refine ⟨?_, ?_, g.cache, g.lines, same_config_trans g.config hcfg2, g.rc01,
          g.at_eof, g.progress, g.count⟩
        · rw [g.out_eq]
          simp only [cs_pending, hesc, hplf, hcache, hcfg2.2.1, hcfg2.2.2.1, cs_text,
            List.flatMap_cons, cs_line, last_lf, List.append_assoc]
        · rw [g.md_eq, clearsign_hash_eq _ _ rfl]
          simp only [cs_pending_md, hplf, hcfg2.2.2.1, hcfg2.2.2.2, cs_hash_lines, last_lf,
            List.append_assoc]
          rfl
    · simp only [hb, if_false]
      exact ⟨rfl, rfl, hc, hl, same_config_refl _, Or.inl rfl,
        (fun h => by cases h), (fun _ => ne_nil_of_len (Nat.le_of_not_lt hb) hs), rfl⟩

/-! ## One call of text_filter, and the whole run -/

theorem text_filter_good (tfx : text_filter_context_t) (a : IOBUF) (size : Nat)
    (hc : cache_ok tfx) (hl : lines_ok a) (hs : size_ok tfx.clearsign size) :
    ∃ r, text_filter tfx .IOBUFCTRL_UNDERFLOW a size = some r ∧
      good_call pending_out pending_md tfx a [] [] r := by
  unfold text_filter
  cases hcs : tfx.clearsign
  · rw [hcs] at hs
    have hs1 : 10 < size := hs
    have g := standard_loop_good (size - 2) (by omega) a tfx [] hc hl
    refine ⟨standard_loop (size - 2) a tfx [], by simp [standard, hs1], ?_⟩
    have hr : (standard_loop (size - 2) a tfx []).tfx.clearsign = false := by
      rw [g.config.1, hcs]
    refine ⟨?_, ?_, g.cache, g.lines, g.config, g.rc01, ?_, g.progress, g.count⟩
    · simp only [pending_out, hr, hcs]; exact g.out_eq
    · have := g.md_eq
      simp only [std_pending_md, List.append_nil] at this
      simp only [pending_md, hr, hcs, this]; rfl
    · intro h
      obtain ⟨h1, h2, _⟩ := g.at_eof h
      simp only [pending_out, pending_md, hr]
      exact ⟨h1, h2, rfl⟩
  · rw [hcs] at hs
    have hs1 : 3 < size := hs
    have g := clearsign_loop_good (size - 3) (by omega) a tfx [] [] hc hl
    refine ⟨clearsign_loop (size - 3) a tfx [] [],
      by simp [clearsign, show 2 < size by omega], ?_⟩
    have hr : (clearsign_loop (size - 3) a tfx [] []).tfx.clearsign = true := by
      rw [g.config.1, hcs]
    refine ⟨?_, ?_, g.cache, g.lines, g.config, g.rc01, ?_, g.progress, g.count⟩
    · simp only [pending_out, hr, hcs]; exact g.out_eq
    · simp only [pending_md, hr, hcs]; exact g.md_eq
    · intro h
      simp only [pending_out, pending_md, hr]
      exact g.at_eof h

theorem run_filter_good (size : Nat) :
    ∀ (fuel : Nat) (tfx : text_filter_context_t) (a : IOBUF),
      cache_ok tfx → lines_ok a → size_ok tfx.clearsign size →
      (pending_out tfx a).length < fuel →
      ∃ k, run_filter size fuel tfx a = some k ∧
        k.out = pending_out tfx a ∧ k.md = pending_md tfx a ∧
        cache_ok k.tfx ∧ lines_ok k.a ∧ same_config k.tfx tfx ∧
        pending_out k.tfx k.a = [] ∧ pending_md k.tfx k.a = [] := by
  intro fuel
  induction fuel with
  | zero => intro tfx a _ _ _ hf; exact absurd hf (Nat.not_lt_zero _)
  | succ fuel ih =>
    intro tfx a hc hl hs hf
    obtain ⟨r, hr, g⟩ := text_filter_good tfx a size hc hl hs
    have hout := g.out_eq
    have hmd := g.md_eq
    simp only [List.nil_append] at hout hmd
    unfold run_filter
    rw [hr]
    by_cases hrc : r.rc = -1
    · obtain ⟨h1, h2, h3⟩ := g.at_eof hrc
      refine ⟨⟨r.buf, r.md, r.tfx, r.a⟩, by simp [hrc], ?_, ?_, g.cache, g.lines,
        g.config, h2, h3⟩
      · rw [← hout, h2, List.append_nil]
      · rw [← hmd, h3, List.append_nil]
    · have hrc0 : r.rc = 0 := g.rc01.resolve_right hrc
      have hne := g.progress hrc0
      have hs2 : size_ok r.tfx.clearsign size := by rw [g.config.1]; exact hs
      have hlen : (pending_out r.tfx r.a).length < fuel := by
        have h1 := congrArg List.length hout
        rw [List.length_append] at h1
        have h2 : 0 < r.buf.length := List.length_pos.mpr hne
        omega
      obtain ⟨k, hk, ko, km, kc, kl, kcfg, kp, kh⟩ := ih r.tfx r.a g.cache g.lines hs2 hlen
      refine ⟨⟨r.buf ++ k.out, r.md ++ k.md, k.tfx, k.a⟩, by simp [hrc, hk], ?_, ?_, kc, kl,
        same_config_trans kcfg g.config, kp, kh⟩
      · show r.buf ++ k.out = _
        rw [ko, hout]
      · show r.md ++ k.md = _
        rw [km, hmd]

theorem last_lf_eq (a : IOBUF) :
    ∀ plf, last_lf plf a = (match a.getLast? with
      | none => plf
      | some e => ends_lf e.1) := by
  induction a with
  | nil => intro plf; rfl
  | cons e rest ih =>
    intro plf
    rw [last_lf, ih]
    cases rest with
    | nil => rfl
    | cons x xs =>
      rw [List.getLast?_cons_cons,
        List.getLast?_eq_getLast (x :: xs) (List.cons_ne_nil _ _)]

theorem last_lf_false (a : IOBUF) : last_lf false a = !needs_final_lf a := by
  rw [last_lf_eq, needs_final_lf]
  cases a.getLast? <;> simp

theorem pending_out_new (cs ef nde md : Bool) (a : IOBUF) :
    pending_out (text_filter_new cs ef nde md) a = full_output cs ef nde a := by
  cases cs
  · simp [pending_out, text_filter_new, std_pending, cache_rest, full_output]
  · simp only [pending_out, text_filter_new, cs_pending, cache_rest, full_output,
      last_lf_false]
    cases needs_final_lf a <;> simp

theorem pending_md_new (cs ef nde md : Bool) (a : IOBUF) :
    pending_md (text_filter_new cs ef nde md) a = full_md cs nde md a := by
  cases cs
  · simp [pending_md, text_filter_new, full_md]
  · simp only [pending_md, text_filter_new, cs_pending_md, full_md, last_lf_false]
    cases needs_final_lf a <;> cases nde <;> simp

/-- A fresh filter, run to the end-of-stream signal with a capacity that
allows progress, outputs `full_output` and hashes `full_md`. -/
theorem run_new (cs ef nde md : Bool) (a : IOBUF) (size fuel : Nat)
    (hl : lines_ok a) (hs : size_ok cs size)
    (hf : (full_output cs ef nde a).length < fuel) :
    ∃ k, run_filter size fuel (text_filter_new cs ef nde md) a = some k ∧
      k.out = full_output cs ef nde a ∧ k.md = full_md cs nde md a ∧
      cache_ok k.tfx ∧ lines_ok k.a ∧ same_config k.tfx (text_filter_new cs ef nde md) ∧
      pending_out k.tfx k.a = [] ∧ pending_md k.tfx k.a = [] := by
  have h := run_filter_good size fuel (text_filter_new cs ef nde md) a
    (Nat.le_refl 0) hl hs (by rw [pending_out_new]; exact hf)
  rw [pending_out_new, pending_md_new] at h
  exact h

theorem call_seq_at_end :
    ∀ (sizes : List Nat) (tfx : text_filter_context_t) (a : IOBUF),
      cache_ok tfx → lines_ok a → pending_out tfx a = [] → pending_md tfx a = [] →
      (∀ s ∈ sizes, size_ok tfx.clearsign s) →
      call_seq sizes tfx a = sizes.map (fun _ => (-1, [], [])) := by
  intro sizes
  induction sizes with
  | nil => intro tfx a _ _ _ _ _; rfl
  | cons size sizes ih =>
    intro tfx a hc hl hp hm hs
    obtain ⟨r, hr, g⟩ := text_filter_good tfx a size hc hl (hs size (List.mem_cons_self _ _))
    have hout := g.out_eq
    have hmd := g.md_eq
    rw [hp] at hout
    rw [hm] at hmd
    simp only [List.nil_append, List.append_eq_nil] at hout hmd
    have hrc : r.rc = -1 := by
      rcases g.rc01 with h0 | h1
      · exact absurd hout.1 (g.progress h0)
      · exact h1
    unfold call_seq
    rw [hr]
    simp only [List.map_cons, hrc, hout.1, hmd.1]
    congr 1
    apply ih r.tfx r.a g.cache g.lines hout.2 hmd.2
    intro s hmem
    rw [g.config.1]
    exact hs s (List.mem_cons_of_mem _ hmem)

theorem full_output_cs_length (ef nde : Bool) (a : IOBUF) :
    (full_output true ef nde a).length ≤ (cs_text ef nde a).length + 1 := by
  simp only [full_output, if_true, List.length_append]
  cases needs_final_lf a <;> simp

theorem cs_text_append (ef nde : Bool) (a b : IOBUF) :
    cs_text ef nde (a ++ b) = cs_text ef nde a ++ cs_text ef nde b := by
  simp [cs_text, List.flatMap_append]

theorem getLast_append_lf (x l : List Nat) (h : l.getLast? = some 10) :
    (x ++ l).getLast? = some 10 := by
  rw [List.getLast?_append, h]
  rfl

theorem cs_out_ends_lf (ef nde : Bool) (a : IOBUF) :
    (cs_text ef nde a ++ (if needs_final_lf a then [10] else [])).getLast? = some 10 := by
  cases hn : needs_final_lf a
  · simp only [Bool.false_eq_true, if_false, List.append_nil]
    unfold needs_final_lf at hn
    cases hlast : a.getLast? with
    | none => rw [hlast] at hn; cases hn
    | some e =>
      rw [hlast] at hn
      have he : e.1.getLast? = some 10 := by
        simpa [ends_lf] using hn
      have ha := List.dropLast_append_getLast? e (by rw [hlast]; exact rfl)
      rw [← ha, cs_text_append]
      apply getLast_append_lf
      show (cs_text ef nde [e]).getLast? = some 10
      simp only [cs_text, List.flatMap_cons, List.flatMap_nil, List.append_nil, cs_line]
      exact getLast_append_lf _ _ he
  · simp

theorem dash_escaped_iff (ef nde : Bool) (l : List Nat) :
    dash_escaped ef nde l = true ↔
      nde = false ∧
        (l.head? = some 45 ∨ (ef = true ∧ 5 ≤ l.length ∧ l.take 5 = from_chars)) := by
  unfold dash_escaped
  cases nde <;> cases ef <;> simp

theorem run_three_stalls (t : text_filter_context_t) (a : IOBUF)
    (h : text_filter t .IOBUFCTRL_UNDERFLOW a 3 = some ⟨0, [], 0, t, a, [], false⟩) :
    ∀ fuel, run_filter 3 fuel t a = none := by
  intro fuel
  induction fuel with
  | zero => rfl
  | succ fuel ih =>
    unfold run_filter
    rw [h]
    simp [ih]

/-! ## What len_without_trailing_ws computes -/

theorem take_succ_getD (line : List Nat) (n : Nat) (h : n < line.length) :
    line.take (n + 1) = line.take n ++ [line.getD n 0] := by
  rw [List.take_succ, List.getD_eq_getElem _ _ h, List.getElem?_eq_getElem h]
  rfl

theorem len_without_trailing_ws_loop_inv (line : List Nat) :
    ∀ (k n : Nat) (mark : Option Nat), n + k ≤ line.length → mark_ok line n mark →
      mark_ok line (n + k) (len_without_trailing_ws_loop line k n mark) := by
  intro k
  induction k with
  | zero => intro n mark _ h; exact h
  | succ k ih =>
    intro n mark hn h
    unfold len_without_trailing_ws_loop
    have hstep := take_succ_getD line n (by omega)
    have hnk : n + (k + 1) = (n + 1) + k := by omega
    rw [hnk]
    by_cases hc : strchr ws_chars (line.getD n 0) = true
    · simp only [hc, if_true]
      apply ih (n + 1) _ (by omega)
      cases mark with
      | none =>
        simp only [Option.isNone_none, if_true, mark_ok]
        rw [hstep, List.rdropWhile_concat_pos _ _ _ hc]
        exact ⟨h.symm, Nat.lt_succ_self n⟩
      | some m =>
        simp only [Option.isNone_some, Bool.false_eq_true, if_false, mark_ok]
        rw [hstep, List.rdropWhile_concat_pos _ _ _ hc]
        exact ⟨h.1, Nat.lt_succ_of_lt h.2⟩
    · simp only [hc, if_false]
      apply ih (n + 1) _ (by omega)
      simp only [mark_ok]
      rw [hstep, List.rdropWhile_concat_neg _ _ _ hc, ← hstep, List.length_take]
      omega

/-- The function `len_without_trailing_ws` returns the length of the line
without the trailing run of bytes that `strchr` finds in `" \t\r\n"`: space,
tab, CR, LF and NUL. -/
theorem len_without_trailing_ws_eq (line : List Nat) (len : Nat)
    (h : len ≤ line.length) :
    len_without_trailing_ws line len =
      ((line.take len).rdropWhile (strchr ws_chars)).length := by
  have hi := len_without_trailing_ws_loop_inv line len 0 none (by omega)
    (by simp [mark_ok])
  rw [Nat.zero_add] at hi
  unfold len_without_trailing_ws
  cases hm : len_without_trailing_ws_loop line len 0 none with
  | none =>
    rw [hm] at hi
    exact hi.symm
  | some m =>
    rw [hm] at hi
    exact hi.1

/-! ## The return code of a call -/

theorem eof_rc_iff (l : List Nat) :
    (if l.length = 0 then (-1 : Int) else 0) = -1 ↔ (true = true ∧ l = []) := by
  cases l <;> simp

theorem drain_none (buffer : List Nat) (blen room pos : Nat) (buf : List Nat)
    (h : ¬ pos < blen) : drain buffer blen room pos buf = (pos, buf) := by
  cases room with
  | zero => rfl
  | succ room => simp [drain, h]

theorem standard_loop_rc (size : Nat) :
    ∀ (a : IOBUF) (tfx : text_filter_context_t) (buf : List Nat),
      rc_facts tfx false buf (standard_loop size a tfx buf) := by
  intro a
  induction a with
  | nil =>
    intro tfx buf
    unfold standard_loop
    by_cases hb : buf.length < size
    · simp only [hb, if_true]
      by_cases hfull : size ≤ (drain tfx.buffer tfx.buffer_len (size - buf.length)
          tfx.buffer_pos buf).2.length
      · simp only [hfull, if_true]
        exact ⟨Or.inl rfl, by simp, rfl, (fun h => by cases h), (fun h => by cases h),
          (fun _ => ne_nil_of_len hfull (by omega))⟩
      · simp only [hfull, if_false]
        refine ⟨eof_rc_cases _, eof_rc_iff _, rfl, (fun _ => ⟨rfl, rfl⟩),
          (fun _ h => by cases h), ?_⟩
        intro hne
        have hd := drain_grows tfx.buffer tfx.buffer_len (size - buf.length)
          tfx.buffer_pos buf
        exact ne_nil_of_len hd (List.length_pos.mpr hne)
    · simp only [hb, if_false]
      exact ⟨Or.inl rfl, by simp, rfl, (fun h => by cases h), (fun h => by cases h),
        (fun h => h)⟩
  | cons e rest ih =>
    intro tfx buf
    obtain ⟨line, trunc⟩ := e
    unfold standard_loop
    by_cases hb : buf.length < size
    · simp only [hb, if_true]
      have hd := drain_grows tfx.buffer tfx.buffer_len (size - buf.length)
        tfx.buffer_pos buf
      by_cases hfull : size ≤ (drain tfx.buffer tfx.buffer_len (size - buf.length)
          tfx.buffer_pos buf).2.length
      · simp only [hfull, if_true]
        exact ⟨Or.inl rfl, by simp, rfl, (fun h => by cases h), (fun h => by cases h),
          (fun _ => ne_nil_of_len hfull (by omega))⟩
      · simp only [hfull, if_false]
        by_cases hline : line.length = 0
        · simp only [hline, if_true]
          refine ⟨eof_rc_cases _, eof_rc_iff _, rfl, (fun _ => ⟨hline, rfl⟩),
            (fun _ h => by cases h), ?_⟩
          intro hne
          exact ne_nil_of_len hd (List.length_pos.mpr hne)
        · simp only [hline, if_false]
          have g := ih (standard_fix_line (read_line tfx line trunc))
            (drain tfx.buffer tfx.buffer_len (size - buf.length) tfx.buffer_pos buf).2
          refine ⟨g.rc01, g.neg, ?_, g.eof_cache, g.eof_flags, ?_⟩
          · rw [g.mode]
            exact (same_config_trans (standard_fix_line_config _)
              (read_line_config _ _ _)).1
          · intro hne
            exact g.grows (ne_nil_of_len hd (List.length_pos.mpr hne))
    · simp only [hb, if_false]
      exact ⟨Or.inl rfl, by simp, rfl, (fun h => by cases h), (fun h => by cases h),
        (fun h => h)⟩

theorem clearsign_eof_rc (s t : text_filter_context_t) (a : IOBUF) (buf0 buf md : List Nat)
    (hb : buf0.length ≤ buf.length) (hm : t.clearsign = s.clearsign)
    (hl : t.buffer_len = 0) (hp : t.buffer_pos = 0) (he : t.pending_esc = false) :
    rc_facts s true buf0 (clearsign_eof t a buf md) := by
  obtain ⟨hbuf, _, htfx, _, hrc, _⟩ := clearsign_eof_fields t a buf md
  have heof : (clearsign_eof t a buf md).eof = true := rfl
  refine ⟨?_, ?_, ?_, ?_, ?_, ?_⟩
  · rw [hrc]; exact eof_rc_cases _
  · rw [hrc, heof]; exact eof_rc_iff _
  · rw [htfx]; exact hm
  · intro _; rw [htfx]; exact ⟨hl, hp⟩
  · intro _ _; rw [htfx]; exact ⟨rfl, he⟩
  · intro hne
    have h1 : 0 < buf0.length := List.length_pos.mpr hne
    apply ne_nil_of_len (n := buf0.length) _ h1
    rw [hbuf, List.length_append]
    omega

theorem emit_esc_fields (tfx : text_filter_context_t) (buf : List Nat) :
    (emit_esc tfx buf).1.pending_esc = false ∧
    (emit_esc tfx buf).1.clearsign = tfx.clearsign ∧
    buf.length ≤ (emit_esc tfx buf).2.length := by
  rw [emit_esc_eq]
  refine ⟨rfl, rfl, ?_⟩
  simp only [List.length_append]
  omega

theorem clearsign_loop_rc (size : Nat) :
    ∀ (a : IOBUF) (tfx : text_filter_context_t) (buf md : List Nat),
      rc_facts tfx true buf (clearsign_loop size a tfx buf md) := by
  intro a
  induction a with
  | nil =>
    intro tfx buf md
    obtain ⟨he1, he2, he3⟩ := emit_esc_fields tfx buf
    have hd := drain_grows (emit_esc tfx buf).1.buffer (emit_esc tfx buf).1.buffer_len
      (size - (emit_esc tfx buf).2.length) (emit_esc tfx buf).1.buffer_pos
      (emit_esc tfx buf).2
    unfold clearsign_loop
    by_cases hb : buf.length < size
    · simp only [hb, if_true]
      by_cases hfull : size ≤ (drain (emit_esc tfx buf).1.buffer
          (emit_esc tfx buf).1.buffer_len (size - (emit_esc tfx buf).2.length)
          (emit_esc tfx buf).1.buffer_pos (emit_esc tfx buf).2).2.length
      · simp only [hfull, if_true]
        exact ⟨Or.inl rfl, by simp, he2, (fun h => by cases h), (fun h => by cases h),
          (fun _ => ne_nil_of_len hfull (by omega))⟩
      · simp only [hfull, if_false]
        exact clearsign_eof_rc tfx _ [] buf _ md (by omega) he2 rfl rfl he1
    · simp only [hb, if_false]
      exact ⟨Or.inl rfl, by simp, rfl, (fun h => by cases h), (fun h => by cases h),
        (fun h => h)⟩
  | cons e rest ih =>
    intro tfx buf md
    obtain ⟨line, trunc⟩ := e
    obtain ⟨he1, he2, he3⟩ := emit_esc_fields tfx buf
    have hd := drain_grows (emit_esc tfx buf).1.buffer (emit_esc tfx buf).1.buffer_len
      (size - (emit_esc tfx buf).2.length) (emit_esc tfx buf).1.buffer_pos
      (emit_esc tfx buf).2
    unfold clearsign_loop
    by_cases hb : buf.length < size
    · simp only [hb, if_true]
      by_cases hfull : size ≤ (drain (emit_esc tfx buf).1.buffer
          (emit_esc tfx buf).1.buffer_len (size - (emit_esc tfx buf).2.length)
          (emit_esc tfx buf).1.buffer_pos (emit_esc tfx buf).2).2.length
      · simp only [hfull, if_true]
        exact ⟨Or.inl rfl, by simp, he2, (fun h => by cases h), (fun h => by cases h),
          (fun _ => ne_nil_of_len hfull (by omega))⟩
      · simp only [hfull, if_false]
        by_cases hline : line.length = 0
        · simp only [hline, if_true]
          exact clearsign_eof_rc tfx _ rest buf _ md (by omega) he2 hline rfl he1
        · simp only [hline, if_false]
          have g := ih (clearsign_flags (read_line (emit_esc tfx buf).1 line trunc))
            (drain (emit_esc tfx buf).1.buffer (emit_esc tfx buf).1.buffer_len
              (size - (emit_esc tfx buf).2.length) (emit_esc tfx buf).1.buffer_pos
              (emit_esc tfx buf).2).2
            (clearsign_hash (read_line (emit_esc tfx buf).1 line trunc) md)
          refine ⟨g.rc01, g.neg, ?_, g.eof_cache, g.eof_flags, ?_⟩
          · rw [g.mode, clearsign_flags_mode]
            exact he2
          · intro hne
            have h1 : 0 < buf.length := List.length_pos.mpr hne
            exact g.grows (ne_nil_of_len (n := buf.length) (by omega) h1)
    · simp only [hb, if_false]
      exact ⟨Or.inl rfl, by simp, rfl, (fun h => by cases h), (fun h => by cases h),
        (fun h => h)⟩

theorem text_filter_rc (tfx : text_filter_context_t) (a : IOBUF) (size : Nat)
    (r : filter_result) (h : text_filter tfx .IOBUFCTRL_UNDERFLOW a size = some r) :
    rc_facts tfx tfx.clearsign [] r := by
  unfold text_filter at h
  cases hcs : tfx.clearsign
  · simp only [hcs, standard, Bool.false_eq_true, if_false] at h
    split at h
    · cases h; exact standard_loop_rc _ a tfx []
    · cases h
  · simp only [hcs, clearsign, if_true] at h
    split at h
    · cases h; exact clearsign_loop_rc _ a tfx [] []
    · cases h

theorem text_filter_returns (tfx : text_filter_context_t) (a : IOBUF) (size : Nat)
    (hs : if tfx.clearsign then 2 < size else 10 < size) :
    ∃ r, text_filter tfx .IOBUFCTRL_UNDERFLOW a size = some r := by
  unfold text_filter
  cases hcs : tfx.clearsign
  · rw [hcs] at hs
    have hs1 : 10 < size := hs
    exact ⟨standard_loop (size - 2) a tfx [], by simp [standard, hs1]⟩
  · rw [hcs] at hs
    have hs1 : 2 < size := hs
    exact ⟨clearsign_loop (size - 3) a tfx [] [], by simp [clearsign, hs1]⟩

theorem next_call_eof (t : text_filter_context_t) (a : IOBUF) (size : Nat)
    (hs : size_ok t.clearsign size) (ha : next_read_eof a)
    (hl : t.buffer_len = 0) (hp : t.buffer_pos = 0)
    (hf : t.clearsign = true → t.pending_lf = true ∧ t.pending_esc = false) :
    ∃ r, text_filter t .IOBUFCTRL_UNDERFLOW a size = some r ∧
      r.rc = -1 ∧ r.buf = [] ∧ r.ret_len = 0 := by
  have hd : ∀ room, drain t.buffer t.buffer_len room t.buffer_pos [] = (t.buffer_pos, []) :=
    fun room => drain_none _ _ _ _ _ (by omega)
  unfold text_filter
  cases hcs : t.clearsign
  · rw [hcs] at hs
    have hs1 : 10 < size := hs
    have hs2 : 0 < size - 2 := by omega
    have hs4 : size - 2 ≠ 0 := by omega
    simp only [standard, hs1, if_true, Bool.false_eq_true, if_false]
    cases a with
    | nil =>
      refine ⟨_, rfl, ?_⟩
      unfold standard_loop
      simp [hs2, hs4, hd]
    | cons e rest =>
      obtain ⟨line, trunc⟩ := e
      have hline : line = [] := ha (line, trunc) rfl
      refine ⟨_, rfl, ?_⟩
      unfold standard_loop
      simp [hs2, hs4, hd, hline]
  · rw [hcs] at hs
    have hs1 : 3 < size := hs
    have hs2 : 0 < size - 3 := by omega
    have hs3 : 2 < size := by omega
    have hs4 : size - 3 ≠ 0 := by omega
    obtain ⟨hplf, hpesc⟩ := hf hcs
    have he : emit_esc t [] = (t, []) := by simp [emit_esc, hpesc]
    simp only [clearsign, hs3, if_true]
    cases a with
    | nil =>
      refine ⟨_, rfl, ?_⟩
      unfold clearsign_loop
      simp [hs2, hs4, he, hd, clearsign_eof, read_line, hplf]
    | cons e rest =>
      obtain ⟨line, trunc⟩ := e
      have hline : line = [] := ha (line, trunc) rfl
      refine ⟨_, rfl, ?_⟩
      unfold clearsign_loop
      simp [hs2, hs4, he, hd, hline, clearsign_eof, read_line, hplf]

/-! ## Splitting into lines, and canonical lines -/

theorem split_absorb (x : List Nat) (hx : 10 ∉ x) :
    ∀ cur rest, split_lines_from cur (x ++ rest) = split_lines_from (cur ++ x) rest := by
  induction x with
  | nil => intro cur rest; simp
  | cons c x ih =>
    intro cur rest
    have hc : c ≠ 10 := fun h => hx (by rw [h]; exact List.mem_cons_self _ _)
    have hx2 : 10 ∉ x := fun h => hx (List.mem_cons_of_mem _ h)
    rw [List.cons_append, split_lines_from]
    simp only [hc, if_false]
    rw [ih hx2]
    simp

theorem split_proper : ∀ (s cur : List Nat), 10 ∉ cur →
    proper_lines (split_lines_from cur s) := by
  intro s
  induction s with
  | nil =>
    intro cur hcur
    unfold split_lines_from
    by_cases h : cur = []
    · simp [h, proper_lines]
    · simp only [h, if_false, proper_lines]
      exact ⟨h, fun hm => hcur (List.mem_of_mem_dropLast hm), fun h => absurd rfl h, trivial⟩
  | cons c s ih =>
    intro cur hcur
    unfold split_lines_from
    by_cases hc : c = 10
    · simp only [hc, if_true, proper_lines]
      refine ⟨by simp, ?_, fun _ => List.getLast?_concat _, ih [] (List.not_mem_nil _)⟩
      rw [List.dropLast_concat]
      exact hcur
    · simp only [hc, if_false]
      apply ih
      intro hm
      rcases List.mem_append.mp hm with h | h
      · exact hcur h
      · exact hc (List.mem_singleton.mp h).symm

theorem split_flatten : ∀ (ls : List (List Nat)), proper_lines ls →
    split_lines_from [] ls.flatten = ls := by
  intro ls
  induction ls with
  | nil => intro _; rfl
  | cons l rest ih =>
    intro h
    obtain ⟨hne, hdl, hlast, hrest⟩ := h
    have hl := List.dropLast_append_getLast hne
    by_cases h10 : l.getLast hne = 10
    · rw [List.flatten_cons, ← hl, h10, List.append_assoc, split_absorb _ hdl]
      simp only [List.singleton_append, List.nil_append]
      rw [split_lines_from]
      simp only [if_true]
      rw [ih hrest]
    · have hr : rest = [] := by
        by_contra hcon
        have := hlast hcon
        rw [List.getLast?_eq_getLast _ hne] at this
        exact h10 (Option.some.inj this)
      subst hr
      have hnl : 10 ∉ l := by
        rw [← hl]
        intro hm
        rcases List.mem_append.mp hm with h | h
        · exact hdl h
        · exact h10 (List.mem_singleton.mp h).symm
      rw [List.flatten_cons, List.flatten_nil, split_absorb _ hnl]
      simp [split_lines_from, hne]

theorem proper_ne_nil : ∀ (ls : List (List Nat)), proper_lines ls → ∀ l ∈ ls, l ≠ [] := by
  intro ls
  induction ls with
  | nil => intro _ l hl; cases hl
  | cons x rest ih =>
    intro h l hl
    rcases List.mem_cons.mp hl with h1 | h1
    · rw [h1]; exact h.1
    · exact ih h.2.2.2 l h1

theorem source_of_lines_ok (s : List Nat) : lines_ok (source_of s) := by
  intro e he
  unfold source_of at he
  obtain ⟨l, hl, rfl⟩ := List.mem_map.mp he
  exact proper_ne_nil _ (split_proper s [] (List.not_mem_nil _)) l hl

theorem is_ws_lf : is_ws 10 = true := rfl

theorem std_line_lf (d : List Nat) :
    std_line (d ++ [10]) = d.rdropWhile is_ws ++ [13, 10] := by
  unfold std_line
  rw [List.rdropWhile_concat_pos is_ws d 10 is_ws_lf, List.getLast?_concat]
  simp

theorem std_line_nolf (l : List Nat) (h : l.getLast? ≠ some 10) :
    std_line l = l.rdropWhile is_ws := by
  unfold std_line
  simp [h]

theorem rdrop_last_ne (l : List Nat) : (l.rdropWhile is_ws).getLast? ≠ some 10 := by
  intro h
  have hne : l.rdropWhile is_ws ≠ [] := by
    intro hn
    rw [hn] at h
    cases h
  have hnot := List.rdropWhile_last_not is_ws l hne
  rw [List.getLast?_eq_getLast _ hne] at h
  rw [Option.some.inj h] at hnot
  exact hnot is_ws_lf

theorem ends_lf_split (l : List Nat) (h : l.getLast? = some 10) :
    l = l.dropLast ++ [10] :=
  (List.dropLast_append_getLast? 10 (by rw [h]; exact rfl)).symm

theorem std_line_idem (l : List Nat) : std_line (std_line l) = std_line l := by
  by_cases h : l.getLast? = some 10
  · rw [ends_lf_split l h, std_line_lf]
    have e : l.dropLast.rdropWhile is_ws ++ [13, 10] =
        (l.dropLast.rdropWhile is_ws ++ [13]) ++ [10] := by simp
    rw [e, std_line_lf, List.rdropWhile_concat_pos is_ws _ 13 rfl,
      List.rdropWhile_idempotent]
    exact e
  · rw [std_line_nolf l h, std_line_nolf _ (rdrop_last_ne l), List.rdropWhile_idempotent]

theorem not_mem_rdrop {l : List Nat} (h : 10 ∉ l) : 10 ∉ l.rdropWhile is_ws :=
  fun hm => h ((List.rdropWhile_prefix is_ws l).subset hm)

theorem canon_lines_cons (l : List Nat) (rest : List (List Nat)) :
    canon_lines (l :: rest) =
      if std_line l = [] then canon_lines rest else std_line l :: canon_lines rest := by
  unfold canon_lines
  rw [List.map_cons, List.filter_cons]
  by_cases h : std_line l = [] <;> simp [h]

theorem canon_lines_proper : ∀ (ls : List (List Nat)), proper_lines ls →
    proper_lines (canon_lines ls) := by
  intro ls
  induction ls with
  | nil => intro _; exact trivial
  | cons l rest ih =>
    intro h
    obtain ⟨hne, hdl, hlast, hrest⟩ := h
    rw [canon_lines_cons]
    by_cases h10 : l.getLast? = some 10
    · have hs : std_line l = (l.dropLast.rdropWhile is_ws ++ [13]) ++ [10] := by
        conv_lhs => rw [ends_lf_split l h10]
        rw [std_line_lf]
        simp
      have hnn : std_line l ≠ [] := by rw [hs]; simp
      simp only [hnn, if_false, proper_lines]
      refine ⟨hnn, ?_, fun _ => by rw [hs]; exact List.getLast?_concat _, ih hrest⟩
      rw [hs, List.dropLast_concat]
      intro hm
      rcases List.mem_append.mp hm with h1 | h1
      · exact not_mem_rdrop hdl h1
      · simp at h1
    · have hr : rest = [] := by
        by_contra hcon
        exact h10 (hlast hcon)
      subst hr
      by_cases hnil : std_line l = []
      · simp only [hnil, if_true]; exact trivial
      · simp only [hnil, if_false, canon_lines, List.map_nil, List.filter_nil, proper_lines]
        refine ⟨hnil, ?_, fun h => absurd rfl h, trivial⟩
        rw [std_line_nolf l h10]
        have hnl : 10 ∉ l := by
          rw [← List.dropLast_append_getLast hne]
          intro hm
          rcases List.mem_append.mp hm with h1 | h1
          · exact hdl h1
          · apply h10
            rw [List.getLast?_eq_getLast _ hne, ← List.mem_singleton.mp h1]
        exact fun hm => not_mem_rdrop hnl (List.mem_of_mem_dropLast hm)

theorem canon_lines_flatten (ls : List (List Nat)) :
    (canon_lines ls).flatten = (ls.map std_line).flatten := by
  induction ls with
  | nil => rfl
  | cons l rest ih =>
    rw [canon_lines_cons]
    by_cases h : std_line l = []
    · simp [h, ih]
    · simp [h, ih]

theorem canon_lines_fixed (ls : List (List Nat)) :
    (canon_lines ls).map std_line = canon_lines ls := by
  induction ls with
  | nil => rfl
  | cons l rest ih =>
    rw [canon_lines_cons]
    by_cases h : std_line l = []
    · simp only [h, if_true]; exact ih
    · simp only [h, if_false, List.map_cons, ih, std_line_idem]

theorem canon_eq (s : List Nat) : canon s = (canon_lines (split_lines s)).flatten := by
  rw [canon_lines_flatten]
  simp [canon, std_text, source_of, List.flatMap, List.map_map, Function.comp_def]

theorem canon_idem (s : List Nat) : canon (canon s) = canon s := by
  have hp := canon_lines_proper _ (split_proper s [] (List.not_mem_nil _))
  have hsplit : split_lines (canon s) = canon_lines (split_lines s) := by
    rw [canon_eq s]
    exact split_flatten _ hp
  rw [canon_eq (canon s), hsplit, canon_lines_flatten, canon_lines_fixed, ← canon_eq]

/-! ## Bounds, cursor and truncation counter of a call -/

theorem drain_le (buffer : List Nat) (blen : Nat) :
    ∀ room pos buf, (drain buffer blen room pos buf).2.length ≤ buf.length + room := by
  intro room
  induction room with
  | zero => intro pos buf; exact Nat.le_refl _
  | succ room ih =>
    intro pos buf
    unfold drain
    split
    · have := ih (pos + 1) (buf ++ [buffer.getD pos 0])
      simp only [List.length_append, List.length_singleton] at this
      omega
    · exact Nat.le_add_right _ _

theorem drain_pos (buffer : List Nat) (blen : Nat) :
    ∀ room pos buf, pos ≤ blen → (drain buffer blen room pos buf).1 ≤ blen := by
  intro room
  induction room with
  | zero => intro pos buf h; exact h
  | succ room ih =>
    intro pos buf h
    unfold drain
    split
    · exact ih (pos + 1) _ (by omega)
    · exact h

theorem trunc_count_cons (l : List Nat) (t : Bool) (pre : IOBUF) :
    trunc_count ((l, t) :: pre) = (if t then 1 else 0) + trunc_count pre := by
  unfold trunc_count
  rw [List.countP_cons]
  cases t
  · simp
  · simp; omega

theorem read_line_truncated (tfx : text_filter_context_t) (l : List Nat) (t : Bool) :
    (read_line tfx l t).truncated = incr_times (if t then 1 else 0) tfx.truncated := by
  cases t <;> rfl

theorem incr_times_add (n m : Nat) :
    ∀ x, incr_times (n + m) x = incr_times m (incr_times n x) := by
  induction n with
  | zero => intro x; rw [Nat.zero_add]; rfl
  | succ n ih =>
    intro x
    rw [Nat.succ_add]
    exact ih (int_incr x)

theorem incr_times_in_range (n : Nat) :
    ∀ x : Int, INT_MIN ≤ x → x + n ≤ INT_MAX → incr_times n x = x + n := by
  induction n with
  | zero => intro x _ _; simp [incr_times]
  | succ n ih =>
    intro x hlo hhi
    unfold INT_MIN at hlo
    unfold INT_MAX at hhi
    have hw : int_incr x = x + 1 := by
      unfold int_incr int_wrap
      push_cast at hhi
      omega
    rw [incr_times, hw, ih (x + 1) (by unfold INT_MIN; omega)
      (by unfold INT_MAX; push_cast at hhi ⊢; omega)]
    push_cast
    omega

theorem trunc_count_append (pre rest : IOBUF) :
    trunc_count (pre ++ rest) = trunc_count pre + trunc_count rest := by
  simp [trunc_count, List.countP_append]

theorem standard_fix_line_cases (t : text_filter_context_t) :
    standard_fix_line t =
        { t with buffer := t.buffer.take (trim_trailing_ws t.buffer t.buffer_len) ++ [13] ++ [10],
                 buffer_len := trim_trailing_ws t.buffer t.buffer_len + 1 + 1 } ∨
    standard_fix_line t = { t with buffer_len := trim_trailing_ws t.buffer t.buffer_len } := by
  unfold standard_fix_line
  by_cases h : (t.buffer.getD (t.buffer_len - 1) 0 == 10) = true
  · left; simp only [h, if_true]
  · right; simp only [h]; rfl

theorem standard_fix_line_truncated (t : text_filter_context_t) :
    (standard_fix_line t).truncated = t.truncated ∧
    (standard_fix_line t).buffer_pos = t.buffer_pos := by
  rcases standard_fix_line_cases t with h | h <;> rw [h] <;> exact ⟨rfl, rfl⟩

theorem standard_loop_facts (size : Nat) :
    ∀ (a : IOBUF) (tfx : text_filter_context_t) (buf : List Nat),
      call_facts size size tfx a buf (standard_loop size a tfx buf) := by
  intro a
  induction a with
  | nil =>
    intro tfx buf
    have hle := drain_le tfx.buffer tfx.buffer_len (size - buf.length) tfx.buffer_pos buf
    unfold standard_loop
    by_cases hb : buf.length < size
    · simp only [hb, if_true]
      have hsz : (drain tfx.buffer tfx.buffer_len (size - buf.length)
          tfx.buffer_pos buf).2.length ≤ size := by omega
      by_cases hfull : size ≤ (drain tfx.buffer tfx.buffer_len (size - buf.length)
          tfx.buffer_pos buf).2.length
      · simp only [hfull, if_true]
        exact ⟨rfl, le_max_of_le_right hsz, (fun h => drain_pos _ _ _ _ _ h),
          ⟨[], rfl, rfl⟩,
          (fun hs _ => ne_nil_of_len hfull hs)⟩
      · simp only [hfull, if_false]
        exact ⟨rfl, le_max_of_le_right hsz, (fun _ => Nat.le_refl 0), ⟨[], rfl, rfl⟩,
          (fun _ h hn => eof_rc_zero h (congrArg List.length hn))⟩
    · simp only [hb, if_false]
      exact ⟨rfl, le_max_left _ _, (fun h => h), ⟨[], rfl, rfl⟩,
        (fun hs _ => ne_nil_of_len (Nat.le_of_not_lt hb) hs)⟩
  | cons e rest ih =>
    intro tfx buf
    obtain ⟨line, trunc⟩ := e
    have hle := drain_le tfx.buffer tfx.buffer_len (size - buf.length) tfx.buffer_pos buf
    unfold standard_loop
    by_cases hb : buf.length < size
    · simp only [hb, if_true]
      have hsz : (drain tfx.buffer tfx.buffer_len (size - buf.length)
          tfx.buffer_pos buf).2.length ≤ size := by omega
      by_cases hfull : size ≤ (drain tfx.buffer tfx.buffer_len (size - buf.length)
          tfx.buffer_pos buf).2.length
      · simp only [hfull, if_true]
        exact ⟨rfl, le_max_of_le_right hsz, (fun h => drain_pos _ _ _ _ _ h),
          ⟨[], rfl, rfl⟩,
          (fun hs _ => ne_nil_of_len hfull hs)⟩
      · simp only [hfull, if_false]
        by_cases hline : line.length = 0
        · simp only [hline, if_true]
          refine ⟨rfl, le_max_of_le_right hsz, (fun _ => Nat.zero_le _),
            ⟨[(line, trunc)], rfl, ?_⟩,
            (fun _ h hn => eof_rc_zero h (congrArg List.length hn))⟩
          rw [trunc_count_cons, read_line_truncated]
          rfl
        · simp only [hline, if_false]
          have g := ih (standard_fix_line (read_line tfx line trunc))
            (drain tfx.buffer tfx.buffer_len (size - buf.length) tfx.buffer_pos buf).2
          obtain ⟨pre, hpre, htr⟩ := g.reads
          obtain ⟨hft, hfp⟩ := standard_fix_line_truncated (read_line tfx line trunc)
          refine ⟨g.count, ?_, ?_, ⟨(line, trunc) :: pre, ?_, ?_⟩, g.progress⟩
          · exact le_trans g.within (max_le (le_max_of_le_right hsz) (le_max_right _ _))
          · intro _
            apply g.cursor
            rw [hfp]
            exact Nat.zero_le _
          · rw [List.cons_append, ← hpre]
          · rw [htr, hft, read_line_truncated, trunc_count_cons, incr_times_add]
    · simp only [hb, if_false]
      exact ⟨rfl, le_max_left _ _, (fun h => h), ⟨[], rfl, rfl⟩,
        (fun hs _ => ne_nil_of_len (Nat.le_of_not_lt hb) hs)⟩

theorem emit_esc_frame (tfx : text_filter_context_t) (buf : List Nat) :
    (emit_esc tfx buf).1.buffer_pos = tfx.buffer_pos ∧
    (emit_esc tfx buf).1.buffer_len = tfx.buffer_len ∧
    (emit_esc tfx buf).1.truncated = tfx.truncated ∧
    (emit_esc tfx buf).2.length ≤ buf.length + 2 := by
  rw [emit_esc_eq]
  refine ⟨rfl, rfl, rfl, ?_⟩
  simp only [List.length_append]
  split <;> simp

theorem clearsign_flags_frame (t : text_filter_context_t) :
    (clearsign_flags t).truncated = t.truncated ∧
    (clearsign_flags t).buffer_pos = t.buffer_pos ∧
    (clearsign_flags t).buffer_len = t.buffer_len ∧
    (clearsign_flags t).buffer = t.buffer := by
  unfold clearsign_flags
  simp only
  split
  · exact ⟨rfl, rfl, rfl, rfl⟩
  · split
    · exact ⟨rfl, rfl, rfl, rfl⟩
    · split <;> exact ⟨rfl, rfl, rfl, rfl⟩

theorem clearsign_eof_facts (size : Nat) (tfx0 : text_filter_context_t) (a0 : IOBUF)
    (buf0 : List Nat) (t : text_filter_context_t) (rest : IOBUF) (buf md : List Nat)
    (pre : IOBUF) (ha : a0 = pre ++ rest)
    (ht : t.truncated = incr_times (trunc_count pre) tfx0.truncated)
    (hp : t.buffer_pos = 0)
    (hlen : buf.length < size) :
    call_facts size (size + 1) tfx0 a0 buf0 (clearsign_eof t rest buf md) := by
  obtain ⟨hbuf, _, htfx, hra, hrc, hcount⟩ := clearsign_eof_fields t rest buf md
  refine ⟨hcount, ?_, ?_, ⟨pre, ?_, ?_⟩, ?_⟩
  · apply le_max_of_le_right
    rw [hbuf, List.length_append]
    have : (if t.pending_lf = true then ([] : List Nat) else [10]).length ≤ 1 := by
      split <;> simp
    omega
  · intro _
    rw [htfx]
    show t.buffer_pos ≤ t.buffer_len
    rw [hp]
    exact Nat.zero_le _
  · rw [hra]; exact ha
  · rw [htfx]; exact ht
  · intro _ h hn
    rw [hrc] at h
    exact eof_rc_zero h (congrArg List.length hn)

theorem clearsign_loop_facts (size : Nat) :
    ∀ (a : IOBUF) (tfx : text_filter_context_t) (buf md : List Nat),
      call_facts size (size + 1) tfx a buf (clearsign_loop size a tfx buf md) := by
  intro a
  induction a with
  | nil =>
    intro tfx buf md
    obtain ⟨hep, hel, het, he2⟩ := emit_esc_frame tfx buf
    have hle := drain_le (emit_esc tfx buf).1.buffer (emit_esc tfx buf).1.buffer_len
      (size - (emit_esc tfx buf).2.length) (emit_esc tfx buf).1.buffer_pos
      (emit_esc tfx buf).2
    unfold clearsign_loop
    by_cases hb : buf.length < size
    · simp only [hb, if_true]
      have hsz : (drain (emit_esc tfx buf).1.buffer (emit_esc tfx buf).1.buffer_len
          (size - (emit_esc tfx buf).2.length) (emit_esc tfx buf).1.buffer_pos
          (emit_esc tfx buf).2).2.length ≤ size + 1 := by omega
      by_cases hfull : size ≤ (drain (emit_esc tfx buf).1.buffer
          (emit_esc tfx buf).1.buffer_len (size - (emit_esc tfx buf).2.length)
          (emit_esc tfx buf).1.buffer_pos (emit_esc tfx buf).2).2.length
      · simp only [hfull, if_true]
        refine ⟨rfl, le_max_of_le_right hsz, ?_, ⟨[], rfl, het⟩,
          (fun hs _ => ne_nil_of_len hfull hs)⟩
        intro h
        apply drain_pos
        rw [hep, hel]
        exact h
      · simp only [hfull, if_false]
        exact clearsign_eof_facts size tfx [] buf _ [] _ md [] rfl het rfl (by omega)
    · simp only [hb, if_false]
      exact ⟨rfl, le_max_left _ _, (fun h => h), ⟨[], rfl, rfl⟩,
        (fun hs _ => ne_nil_of_len (Nat.le_of_not_lt hb) hs)⟩
  | cons e rest ih =>
    intro tfx buf md
    obtain ⟨line, trunc⟩ := e
    obtain ⟨hep, hel, het, he2⟩ := emit_esc_frame tfx buf
    have hle := drain_le (emit_esc tfx buf).1.buffer (emit_esc tfx buf).1.buffer_len
      (size - (emit_esc tfx buf).2.length) (emit_esc tfx buf).1.buffer_pos
      (emit_esc tfx buf).2
    unfold clearsign_loop
    by_cases hb : buf.length < size
    · simp only [hb, if_true]
      have hsz : (drain (emit_esc tfx buf).1.buffer (emit_esc tfx buf).1.buffer_len
          (size - (emit_esc tfx buf).2.length) (emit_esc tfx buf).1.buffer_pos
          (emit_esc tfx buf).2).2.length ≤ size + 1 := by omega
      by_cases hfull : size ≤ (drain (emit_esc tfx buf).1.buffer
          (emit_esc tfx buf).1.buffer_len (size - (emit_esc tfx buf).2.length)
          (emit_esc tfx buf).1.buffer_pos (emit_esc tfx buf).2).2.length
      · simp only [hfull, if_true]
        refine ⟨rfl, le_max_of_le_right hsz, ?_, ⟨[], rfl, het⟩,
          (fun hs _ => ne_nil_of_len hfull hs)⟩
        intro h
        apply drain_pos
        rw [hep, hel]
        exact h
      · simp only [hfull, if_false]
        have htr : (read_line (emit_esc tfx buf).1 line trunc).truncated =
            incr_times (trunc_count [(line, trunc)]) tfx.truncated := by
          rw [read_line_truncated, het, trunc_count_cons]
          rfl
        by_cases hline : line.length = 0
        · simp only [hline, if_true]
          exact clearsign_eof_facts size tfx ((line, trunc) :: rest) buf _ rest _ md
            [(line, trunc)] rfl htr rfl (by omega)
        · simp only [hline, if_false]
          have g := ih (clearsign_flags (read_line (emit_esc tfx buf).1 line trunc))
            (drain (emit_esc tfx buf).1.buffer (emit_esc tfx buf).1.buffer_len
              (size - (emit_esc tfx buf).2.length) (emit_esc tfx buf).1.buffer_pos
              (emit_esc tfx buf).2).2
            (clearsign_hash (read_line (emit_esc tfx buf).1 line trunc) md)
          obtain ⟨pre, hpre, hptr⟩ := g.reads
          obtain ⟨hft, hfp, _, _⟩ :=
            clearsign_flags_frame (read_line (emit_esc tfx buf).1 line trunc)
          refine ⟨g.count, ?_, ?_, ⟨(line, trunc) :: pre, ?_, ?_⟩, g.progress⟩
          · exact le_trans g.within (max_le (le_max_of_le_right hsz) (le_max_right _ _))
          · intro _
            apply g.cursor
            rw [hfp]
            exact Nat.zero_le _
          · rw [List.cons_append, ← hpre]
          · rw [hptr, hft, htr, ← incr_times_add, ← trunc_count_append]
            rfl
    · simp only [hb, if_false]
      exact ⟨rfl, le_max_left _ _, (fun h => h), ⟨[], rfl, rfl⟩,
        (fun hs _ => ne_nil_of_len (Nat.le_of_not_lt hb) hs)⟩

theorem text_filter_facts (tfx : text_filter_context_t) (a : IOBUF) (size : Nat)
    (r : filter_result) (h : text_filter tfx .IOBUFCTRL_UNDERFLOW a size = some r) :
    call_facts (if tfx.clearsign then size - 3 else size - 2) (size - 2) tfx a [] r := by
  unfold text_filter at h
  cases hcs : tfx.clearsign
  · simp only [hcs, standard, Bool.false_eq_true, if_false] at h
    split at h
    · cases h
      exact standard_loop_facts (size - 2) a tfx []
    · cases h
  · simp only [hcs, clearsign, if_true] at h
    split at h
    · rename_i hs
      cases h
      have g := clearsign_loop_facts (size - 3) a tfx [] []
      have e : size - 3 + 1 = size - 2 := by omega
      rw [e] at g
      exact g
    · cases h

/-! ## Standard mode touches the line cache and the counter only -/

theorem same_flags_refl (t : text_filter_context_t) : same_flags t t :=
  ⟨rfl, rfl, rfl, rfl, rfl, rfl⟩

theorem same_flags_trans {s t u : text_filter_context_t}
    (h1 : same_flags s t) (h2 : same_flags t u) : same_flags s u :=
  ⟨h1.1.trans h2.1, h1.2.1.trans h2.2.1, h1.2.2.1.trans h2.2.2.1,
    h1.2.2.2.1.trans h2.2.2.2.1, h1.2.2.2.2.1.trans h2.2.2.2.2.1,
    h1.2.2.2.2.2.trans h2.2.2.2.2.2⟩

theorem standard_fix_line_flags (t : text_filter_context_t) :
    same_flags (standard_fix_line t) t := by
  rcases standard_fix_line_cases t with h | h <;> rw [h] <;> exact same_flags_refl t

theorem standard_loop_frame (size : Nat) :
    ∀ (a : IOBUF) (tfx : text_filter_context_t) (buf : List Nat),
      (standard_loop size a tfx buf).md = [] ∧
      same_flags (standard_loop size a tfx buf).tfx tfx := by
  intro a
  induction a with
  | nil =>
    intro tfx buf
    unfold standard_loop
    by_cases hb : buf.length < size
    · simp only [hb, if_true]
      split
      · exact ⟨rfl, same_flags_refl tfx⟩
      · exact ⟨rfl, same_flags_refl tfx⟩
    · simp only [hb, if_false]
      exact ⟨trivial, same_flags_refl tfx⟩
  | cons e rest ih =>
    intro tfx buf
    obtain ⟨line, trunc⟩ := e
    unfold standard_loop
    by_cases hb : buf.length < size
    · simp only [hb, if_true]
      split
      · exact ⟨rfl, same_flags_refl tfx⟩
      · split
        · exact ⟨rfl, same_flags_refl tfx⟩
        · have g := ih (standard_fix_line (read_line tfx line trunc))
            (drain tfx.buffer tfx.buffer_len (size - buf.length) tfx.buffer_pos buf).2
          exact ⟨g.1, same_flags_trans g.2
            (same_flags_trans (standard_fix_line_flags _) (same_flags_refl tfx))⟩
    · simp only [hb, if_false]
      exact ⟨trivial, same_flags_refl tfx⟩

/-! ## A clearsign call leaves no escape pending -/

theorem clearsign_loop_esc (size : Nat) :
    ∀ (a : IOBUF) (tfx : text_filter_context_t) (buf md : List Nat),
      buf.length < size → (clearsign_loop size a tfx buf md).tfx.pending_esc = false := by
  intro a
  induction a with
  | nil =>
    intro tfx buf md hb
    obtain ⟨he1, _, _⟩ := emit_esc_fields tfx buf
    unfold clearsign_loop
    simp only [hb, if_true]
    split
    · exact he1
    · rw [(clearsign_eof_fields _ _ _ _).2.2.1]
      exact he1
  | cons e rest ih =>
    intro tfx buf md hb
    obtain ⟨line, trunc⟩ := e
    obtain ⟨he1, _, _⟩ := emit_esc_fields tfx buf
    unfold clearsign_loop
    simp only [hb, if_true]
    split
    · exact he1
    · rename_i hfull
      split
      · rw [(clearsign_eof_fields _ _ _ _).2.2.1]
        exact he1
      · exact ih _ _ _ (Nat.lt_of_not_le hfull)

/-! ## Truncation flags change the counter and nothing else -/

theorem standard_fix_line_clear (t : text_filter_context_t) :
    standard_fix_line (clear_truncated t) = clear_truncated (standard_fix_line t) := by
  unfold standard_fix_line clear_truncated
  by_cases h : (t.buffer.getD (t.buffer_len - 1) 0 == 10) = true
  · simp only [h, if_true]
  · simp only [h]; rfl

theorem standard_loop_untrunc (size : Nat) :
    ∀ (a : IOBUF) (tfx : text_filter_context_t) (buf : List Nat),
      standard_loop size (untrunc a) (clear_truncated tfx) buf =
        clear_result (standard_loop size a tfx buf) := by
  intro a
  induction a with
  | nil =>
    intro tfx buf
    show standard_loop size [] (clear_truncated tfx) buf = _
    unfold standard_loop
    by_cases hb : buf.length < size
    · simp only [hb, if_true]
      by_cases hfull : size ≤ (drain tfx.buffer tfx.buffer_len (size - buf.length)
          tfx.buffer_pos buf).2.length
      · have hfull2 : size ≤ (drain (clear_truncated tfx).buffer
            (clear_truncated tfx).buffer_len (size - buf.length)
            (clear_truncated tfx).buffer_pos buf).2.length := hfull
        simp only [hfull, hfull2, if_true]
        rfl
      · have hfull2 : ¬ size ≤ (drain (clear_truncated tfx).buffer
            (clear_truncated tfx).buffer_len (size - buf.length)
            (clear_truncated tfx).buffer_pos buf).2.length := hfull
        simp only [hfull, hfull2, if_false]
        rfl
    · simp only [hb, if_false]
      rfl
  | cons e rest ih =>
    intro tfx buf
    obtain ⟨line, trunc⟩ := e
    show standard_loop size ((line, false) :: untrunc rest) (clear_truncated tfx) buf = _
    unfold standard_loop
    by_cases hb : buf.length < size
    · simp only [hb, if_true]
      by_cases hfull : size ≤ (drain tfx.buffer tfx.buffer_len (size - buf.length)
          tfx.buffer_pos buf).2.length
      · have hfull2 : size ≤ (drain (clear_truncated tfx).buffer
            (clear_truncated tfx).buffer_len (size - buf.length)
            (clear_truncated tfx).buffer_pos buf).2.length := hfull
        simp only [hfull, hfull2, if_true]
        rfl
      · have hfull2 : ¬ size ≤ (drain (clear_truncated tfx).buffer
            (clear_truncated tfx).buffer_len (size - buf.length)
            (clear_truncated tfx).buffer_pos buf).2.length := hfull
        simp only [hfull, hfull2, if_false]
        by_cases hline : line.length = 0
        · simp only [hline, if_true]
          rfl
        · simp only [hline, if_false]
          have e1 : read_line (clear_truncated tfx) line false =
              clear_truncated (read_line tfx line trunc) := rfl
          rw [e1, standard_fix_line_clear]
          exact ih _ _
    · simp only [hb, if_false]
      rfl

theorem emit_esc_clear (t : text_filter_context_t) (buf : List Nat) :
    emit_esc (clear_truncated t) buf =
      (clear_truncated (emit_esc t buf).1, (emit_esc t buf).2) := by
  unfold emit_esc
  by_cases h : t.pending_esc = true
  · have h2 : (clear_truncated t).pending_esc = true := h
    simp only [h, h2, if_true]
    rfl
  · have h2 : ¬ (clear_truncated t).pending_esc = true := h
    simp only [h, h2]
    rfl

theorem clearsign_flags_clear (t : text_filter_context_t) :
    clearsign_flags (clear_truncated t) = clear_truncated (clearsign_flags t) := by
  unfold clearsign_flags clear_truncated
  simp only
  split
  · rfl
  · split
    · rfl
    · split <;> rfl

theorem clearsign_eof_clear (t : text_filter_context_t) (a : IOBUF) (buf md : List Nat) :
    clearsign_eof (clear_truncated t) (untrunc a) buf md =
      clear_result (clearsign_eof t a buf md) := by
  unfold clearsign_eof clear_result clear_truncated
  cases t with
  | mk b bl bp tr cs ef nde m plf pesc =>
    cases plf <;> cases nde <;> rfl

theorem clearsign_loop_untrunc (size : Nat) :
    ∀ (a : IOBUF) (tfx : text_filter_context_t) (buf md : List Nat),
      clearsign_loop size (untrunc a) (clear_truncated tfx) buf md =
        clear_result (clearsign_loop size a tfx buf md) := by
  intro a
  induction a with
  | nil =>
    intro tfx buf md
    show clearsign_loop size [] (clear_truncated tfx) buf md = _
    unfold clearsign_loop
    by_cases hb : buf.length < size
    · simp only [hb, if_true]
      rw [emit_esc_clear]
      generalize emit_esc tfx buf = e
      obtain ⟨t1, b1⟩ := e
      simp only
      by_cases hfull : size ≤ (drain t1.buffer t1.buffer_len (size - b1.length)
          t1.buffer_pos b1).2.length
      · have hfull2 : size ≤ (drain (clear_truncated t1).buffer
            (clear_truncated t1).buffer_len (size - b1.length)
            (clear_truncated t1).buffer_pos b1).2.length := hfull
        simp only [hfull, hfull2, if_true]
        rfl
      · have hfull2 : ¬ size ≤ (drain (clear_truncated t1).buffer
            (clear_truncated t1).buffer_len (size - b1.length)
            (clear_truncated t1).buffer_pos b1).2.length := hfull
        simp only [hfull, hfull2, if_false]
        exact clearsign_eof_clear (read_line t1 [] false) [] _ md
    · simp only [hb, if_false]
      rfl
  | cons e rest ih =>
    intro tfx buf md
    obtain ⟨line, trunc⟩ := e
    show clearsign_loop size ((line, false) :: untrunc rest) (clear_truncated tfx) buf md = _
    unfold clearsign_loop
    by_cases hb : buf.length < size
    · simp only [hb, if_true]
      rw [emit_esc_clear]
      generalize emit_esc tfx buf = e
      obtain ⟨t1, b1⟩ := e
      simp only
      by_cases hfull : size ≤ (drain t1.buffer t1.buffer_len (size - b1.length)
          t1.buffer_pos b1).2.length
      · have hfull2 : size ≤ (drain (clear_truncated t1).buffer
            (clear_truncated t1).buffer_len (size - b1.length)
            (clear_truncated t1).buffer_pos b1).2.length := hfull
        simp only [hfull, hfull2, if_true]
        rfl
      · have hfull2 : ¬ size ≤ (drain (clear_truncated t1).buffer
            (clear_truncated t1).buffer_len (size - b1.length)
            (clear_truncated t1).buffer_pos b1).2.length := hfull
        simp only [hfull, hfull2, if_false]
        have e1 : read_line (clear_truncated t1) line false =
            clear_truncated (read_line t1 line trunc) := rfl
        by_cases hline : line.length = 0
        · simp only [hline, if_true]
          rw [e1]
          exact clearsign_eof_clear (read_line t1 line trunc) rest _ md
        · simp only [hline, if_false]
          rw [e1, clearsign_flags_clear]
          exact ih _ _ _
    · simp only [hb, if_false]
      rfl

theorem text_filter_untrunc (tfx : text_filter_context_t) (a : IOBUF) (size : Nat) :
    text_filter (clear_truncated tfx) .IOBUFCTRL_UNDERFLOW (untrunc a) size =
      (text_filter tfx .IOBUFCTRL_UNDERFLOW a size).map clear_result := by
  unfold text_filter
  have hm : (clear_truncated tfx).clearsign = tfx.clearsign := rfl
  simp only [hm]
  cases tfx.clearsign
  · simp only [standard, Bool.false_eq_true, if_false]
    split
    · rw [Option.map_some', standard_loop_untrunc]
    · rfl
  · simp only [clearsign, if_true]
    split
    · rw [Option.map_some', clearsign_loop_untrunc]
    · rfl

theorem call_seq_untrunc :
    ∀ (sizes : List Nat) (tfx : text_filter_context_t) (a : IOBUF),
      call_seq sizes (clear_truncated tfx) (untrunc a) = call_seq sizes tfx a ∧
      after_calls sizes (clear_truncated tfx) (untrunc a) =
        (clear_truncated (after_calls sizes tfx a).1, untrunc (after_calls sizes tfx a).2) := by
  intro sizes
  induction sizes with
  | nil => intro tfx a; exact ⟨rfl, rfl⟩
  | cons size sizes ih =>
    intro tfx a
    unfold call_seq after_calls
    rw [text_filter_untrunc]
    cases h : text_filter tfx .IOBUFCTRL_UNDERFLOW a size with
    | none => exact ⟨rfl, rfl⟩
    | some r =>
      simp only [Option.map_some']
      obtain ⟨h1, h2⟩ := ih r.tfx r.a
      constructor
      · show (r.rc, r.buf, r.md) ::
            call_seq sizes (clear_truncated r.tfx) (untrunc r.a) = _
        rw [h1]
      · exact h2

theorem after_calls_reads :
    ∀ (sizes : List Nat) (tfx : text_filter_context_t) (a : IOBUF),
      ∃ pre, a = pre ++ (after_calls sizes tfx a).2 ∧
        (after_calls sizes tfx a).1.truncated =
          incr_times (trunc_count pre) tfx.truncated := by
  intro sizes
  induction sizes with
  | nil => intro tfx a; exact ⟨[], rfl, rfl⟩
  | cons size sizes ih =>
    intro tfx a
    unfold after_calls
    cases h : text_filter tfx .IOBUFCTRL_UNDERFLOW a size with
    | none => exact ⟨[], rfl, rfl⟩
    | some r =>
      simp only
      obtain ⟨pre1, hp1, ht1⟩ := (text_filter_facts tfx a size r h).reads
      obtain ⟨pre2, hp2, ht2⟩ := ih r.tfx r.a
      refine ⟨pre1 ++ pre2, ?_, ?_⟩
      · rw [List.append_assoc, ← hp2, ← hp1]
      · rw [ht2, ht1, trunc_count_append, incr_times_add]

/-! ## Lemmas for the single-call claims -/

theorem standard_returns (tfx : text_filter_context_t) (a : IOBUF) (size : Nat)
    (hcs : tfx.clearsign = false) (hs : 10 < size) :
    text_filter tfx .IOBUFCTRL_UNDERFLOW a size =
      some (standard_loop (size - 2) a tfx []) := by
  simp [text_filter, standard, hcs, hs]

theorem clearsign_returns (tfx : text_filter_context_t) (a : IOBUF) (size : Nat)
    (hcs : tfx.clearsign = true) (hs : 2 < size) :
    text_filter tfx .IOBUFCTRL_UNDERFLOW a size =
      some (clearsign_loop (size - 3) a tfx [] []) := by
  simp [text_filter, clearsign, hcs, hs]

theorem standard_refill (tfx : text_filter_context_t) (line : List Nat) (trunc : Bool)
    (h : line ≠ []) :
    (standard_fix_line (read_line tfx line trunc)).buffer_pos = 0 ∧
    (standard_fix_line (read_line tfx line trunc)).buffer_len =
      trim_trailing_ws line line.length + (if line.getLast? = some 10 then 2 else 0) := by
  unfold standard_fix_line read_line
  simp only [getD_last line h]
  by_cases hlf : line.getLast? = some 10
  · simp [hlf]
  · simp [hlf]

theorem cs_text_verbatim (ef : Bool) (a : IOBUF) :
    cs_text ef true a = a.flatMap (fun e => e.1) := by
  induction a with
  | nil => rfl
  | cons e rest ih =>
    simp only [cs_text, List.flatMap_cons] at ih ⊢
    rw [ih]
    simp [cs_line, dash_escaped]

theorem cs_hash_lines_verbatim (a : IOBUF) :
    ∀ plf, cs_hash_lines true true plf a = a.flatMap (fun e => e.1) := by
  induction a with
  | nil => intro plf; rfl
  | cons e rest ih =>
    intro plf
    rw [cs_hash_lines, ih, List.flatMap_cons]
    simp [cs_hash_line]

/-! ## The claims -/

/-- C1: standard mode, whole stream. For every sequence of source lines (each
read before the end returns at least one byte), every capacity above 10 and
enough calls, the bytes returned by the successive produce-data calls up to
the end-of-stream signal are, concatenated, the lines in order, each without
its trailing whitespace (space, tab, CR, LF) and followed by CR LF exactly
when the line ended in a line-feed. -/
theorem standard_whole_stream (a : IOBUF) (hl : lines_ok a) (ef nde md : Bool)
    (size fuel : Nat) (hs : 10 < size) (hf : (std_text a).length < fuel) :
    (run_filter size fuel (text_filter_new false ef nde md) a).map (fun k => k.out) =
      some (a.flatMap (fun e =>
        e.1.rdropWhile is_ws ++ (if e.1.getLast? = some 10 then [13, 10] else []))) := by
  obtain ⟨k, hk, ho, _⟩ := run_new false ef nde md a size fuel hl hs hf
  rw [hk, Option.map_some', ho]
  rfl

/-- C1, the scenario of the specification: `"hello   \n"`, `"world"` gives
`"hello\r\nworld"`, here with the smallest capacity, 11. -/
theorem standard_whole_stream_witness :
    (run_filter 11 13 (text_filter_new false false false false) hello_world).map
        (fun k => k.out) =
      some [104, 101, 108, 108, 111, 13, 10, 119, 111, 114, 108, 100] :=
  standard_whole_stream hello_world (by simp [lines_ok, hello_world]) false false false
    11 13 (by decide) (by decide)

/-- C2, as stated, fails: in clearsign mode the capacity 3 passes the
assertion `size > 2`, but a call with it returns 0 with no byte and changes
nothing, so no number of calls reaches the end-of-stream signal, while
capacity 4 gives the whole output. -/
theorem capacity_three_never_ends :
    text_filter (text_filter_new true false false true) .IOBUFCTRL_UNDERFLOW
        [([97], false)] 3 =
      some ⟨0, [], 0, text_filter_new true false false true, [([97], false)], [], false⟩ ∧
    (∀ fuel, run_filter 3 fuel (text_filter_new true false false true) [([97], false)] =
      none) ∧
    (run_filter 4 3 (text_filter_new true false false true) [([97], false)]).map
        (fun k => (k.out, k.md)) = some ([97, 10], [97]) :=
  ⟨rfl, run_three_stalls _ _ rfl, rfl⟩

/-- C2, amended: for each mode and any two capacities that allow progress
(standard: above 10; clearsign: above 3), running produce-data to the
end-of-stream signal on the same lines gives the same output bytes and the
same hashed bytes. -/
theorem buffer_size_independent (cs ef nde md : Bool) (a : IOBUF) (hl : lines_ok a)
    (c1 c2 f1 f2 : Nat)
    (h1 : if cs then 3 < c1 else 10 < c1) (h2 : if cs then 3 < c2 else 10 < c2)
    (hf1 : (full_output cs ef nde a).length < f1)
    (hf2 : (full_output cs ef nde a).length < f2) :
    ∃ k1 k2, run_filter c1 f1 (text_filter_new cs ef nde md) a = some k1 ∧
      run_filter c2 f2 (text_filter_new cs ef nde md) a = some k2 ∧
      k1.out = k2.out ∧ k1.md = k2.md := by
  obtain ⟨k1, hk1, ho1, hm1, _⟩ := run_new cs ef nde md a c1 f1 hl h1 hf1
  obtain ⟨k2, hk2, ho2, hm2, _⟩ := run_new cs ef nde md a c2 f2 hl h2 hf2
  exact ⟨k1, k2, hk1, hk2, ho1.trans ho2.symm, hm1.trans hm2.symm⟩

/-- C2 amended, at a concrete input: clearsign with capacities 4 and 8192 on
`"hello   \n"`, `"world"`. -/
theorem buffer_size_independent_witness :
    ∃ k1 k2, run_filter 4 16 (text_filter_new true true false true) hello_world = some k1 ∧
      run_filter 8192 16 (text_filter_new true true false true) hello_world = some k2 ∧
      k1.out = k2.out ∧ k1.md = k2.md :=
  buffer_size_independent true true false true hello_world
    (by simp [lines_ok, hello_world]) 4 8192 16 16 (by decide) (by decide)
    (by decide) (by decide)

/-- C3: clearsign end of stream, output side. For every sequence of source
lines and every capacity above 3, the complete output is the lines (with
their escapes) followed by one synthesized line-feed exactly when the input
is empty or its last line does not end in a line-feed; the complete output
ends in a line-feed; and every later produce-data call (capacity above 3)
returns the end-of-stream sentinel with no byte written and no byte
hashed. -/
theorem clearsign_final_line_feed (a : IOBUF) (hl : lines_ok a) (ef nde md : Bool)
    (size fuel : Nat) (hs : 3 < size) (hf : (cs_text ef nde a).length + 1 < fuel) :
    ∃ k, run_filter size fuel (text_filter_new true ef nde md) a = some k ∧
      k.out = cs_text ef nde a ++ (if needs_final_lf a then [10] else []) ∧
      k.out.getLast? = some 10 ∧
      ∀ sizes : List Nat, (∀ s ∈ sizes, 3 < s) →
        call_seq sizes k.tfx k.a = sizes.map (fun _ => (-1, [], [])) := by
  have hlen := full_output_cs_length ef nde a
  obtain ⟨k, hk, ho, _, kc, kl, kcfg, kp, kh⟩ :=
    run_new true ef nde md a size fuel hl hs (by omega)
  have ho2 : k.out = cs_text ef nde a ++ (if needs_final_lf a then [10] else []) := by
    rw [ho]; rfl
  refine ⟨k, hk, ho2, ?_, ?_⟩
  · rw [ho2]; exact cs_out_ends_lf ef nde a
  · intro sizes hsz
    apply call_seq_at_end sizes k.tfx k.a kc kl kp kh
    intro s hmem
    rw [kcfg.1]
    exact hsz s hmem

/-- C3 at a concrete input: `"hello   \n"`, `"world"` with capacity 4. -/
theorem clearsign_final_line_feed_witness :
    ∃ k, run_filter 4 17 (text_filter_new true false false true) hello_world = some k ∧
      k.out = cs_text false false hello_world ++
        (if needs_final_lf hello_world then [10] else []) ∧
      k.out.getLast? = some 10 ∧
      ∀ sizes : List Nat, (∀ s ∈ sizes, 3 < s) →
        call_seq sizes k.tfx k.a = sizes.map (fun _ => (-1, [], [])) :=
  clearsign_final_line_feed hello_world (by simp [lines_ok, hello_world]) false false true
    4 17 (by decide) (by decide)

/-- C4, as stated, fails: on `"world"` (no final line-feed) with a hash
handle, non-verbatim hashing feeds `"world"` and no line-feed for the
synthesized one, and verbatim hashing (not_dash_escaped) feeds `"world"` and
one line-feed; the claim has the two modes the other way round. -/
theorem final_lf_hash_counterexample :
    (run_filter 8192 3 (text_filter_new true false false true) [(world_line, false)]).map
        (fun k => (k.out, k.md)) =
      some ([119, 111, 114, 108, 100, 10], [119, 111, 114, 108, 100]) ∧
    (run_filter 8192 3 (text_filter_new true false true true) [(world_line, false)]).map
        (fun k => (k.out, k.md)) =
      some ([119, 111, 114, 108, 100, 10], [119, 111, 114, 108, 100, 10]) :=
  ⟨rfl, rfl⟩

/-- C4, amended: with a hash handle, when end-of-stream is reached on an
input that does not end in a line-feed, the hash handle receives what the
fetched lines sent and then exactly one line-feed for the synthesized one in
verbatim mode (not_dash_escaped on), and nothing more in non-verbatim
mode. -/
theorem final_lf_hash (a : IOBUF) (hl : lines_ok a) (hn : needs_final_lf a = true)
    (ef nde : Bool) (size fuel : Nat) (hs : 3 < size)
    (hf : (cs_text ef nde a).length + 1 < fuel) :
    (run_filter size fuel (text_filter_new true ef nde true) a).map (fun k => k.md) =
      some (cs_hash_lines true nde false a ++ (if nde then [10] else [])) := by
  have hlen := full_output_cs_length ef nde a
  obtain ⟨k, hk, _, hm, _⟩ := run_new true ef nde true a size fuel hl hs (by omega)
  rw [hk, Option.map_some', hm]
  simp [full_md, hn]

/-- C4 amended, at a concrete input: `"hello   \n"`, `"world"` in verbatim
mode with capacity 4. -/
theorem final_lf_hash_witness :
    (run_filter 4 16 (text_filter_new true false true true) hello_world).map
        (fun k => k.md) =
      some [104, 101, 108, 108, 111, 32, 32, 32, 10, 119, 111, 114, 108, 100, 10] :=
  final_lf_hash hello_world (by simp [lines_ok, hello_world]) rfl false true 4 16
    (by decide) (by decide)

/-- C5: the clearsign escaping rule. Whatever lines come before and after a
source line `l`, and whatever capacity above 3 (so however many calls the
line is split over), the complete output holds, between the contributions of
the lines before and of the lines after, the two bytes `"- "` followed by the
bytes of `l` when `l` is dash-escaped, and the bytes of `l` alone when it is
not; `l` is dash-escaped exactly when not_dash_escaped is off and either its
first byte is `-` or escape_from is on and `l` has at least 5 bytes and
begins with `"From "`. -/
theorem clearsign_escaping (pre post : IOBUF) (l : List Nat) (t : Bool)
    (hl : lines_ok (pre ++ (l, t) :: post)) (ef nde md : Bool) (size fuel : Nat)
    (hs : 3 < size) (hf : (cs_text ef nde (pre ++ (l, t) :: post)).length + 1 < fuel) :
    (run_filter size fuel (text_filter_new true ef nde md) (pre ++ (l, t) :: post)).map
        (fun k => k.out) =
      some (cs_text ef nde pre ++
        ((if dash_escaped ef nde l then [45, 32] else []) ++ l) ++
        (cs_text ef nde post ++
          (if needs_final_lf (pre ++ (l, t) :: post) then [10] else []))) ∧
    (dash_escaped ef nde l = true ↔
      nde = false ∧
        (l.head? = some 45 ∨ (ef = true ∧ 5 ≤ l.length ∧ l.take 5 = from_chars))) := by
  have hlen := full_output_cs_length ef nde (pre ++ (l, t) :: post)
  obtain ⟨k, hk, ho, _⟩ :=
    run_new true ef nde md (pre ++ (l, t) :: post) size fuel hl hs (by omega)
  refine ⟨?_, dash_escaped_iff ef nde l⟩
  rw [hk, Option.map_some', ho]
  simp only [full_output, if_true, cs_text_append]
  simp only [cs_text, List.flatMap_cons, cs_line, List.append_assoc]

/-- C5, the scenario of the specification: the line `"-----BEGIN"` gives
`"- -----BEGIN"` (and the synthesized line-feed), here with capacity 4. -/
theorem clearsign_escaping_witness :
    (run_filter 4 14 (text_filter_new true false false true) [(begin_line, false)]).map
        (fun k => k.out) =
      some [45, 32, 45, 45, 45, 45, 45, 66, 69, 71, 73, 78, 10] :=
  (clearsign_escaping [] [] begin_line false (by simp [lines_ok, begin_line]) false false
    true 4 14 (by decide) (by decide)).1

/-- C6: escaping never reaches the hash. For every sequence of source lines
and capacities above 3, the bytes fed to the hash handle are the same with
escape_from on and off: what the fetched lines send (their own bytes, up to
`len_without_trailing_ws` in non-verbatim mode, with the CR LF between lines),
and the line-feed of verbatim mode at the end; no `"- "` is among them. -/
theorem hash_ignores_escaping (a : IOBUF) (hl : lines_ok a) (nde md : Bool)
    (s1 s2 f1 f2 : Nat) (h1 : 3 < s1) (h2 : 3 < s2)
    (hf1 : (cs_text true nde a).length + 1 < f1)
    (hf2 : (cs_text false nde a).length + 1 < f2) :
    (run_filter s1 f1 (text_filter_new true true nde md) a).map (fun k => k.md) =
      some (cs_hash_lines md nde false a ++
        (if needs_final_lf a && nde then [10] else [])) ∧
    (run_filter s2 f2 (text_filter_new true false nde md) a).map (fun k => k.md) =
      some (cs_hash_lines md nde false a ++
        (if needs_final_lf a && nde then [10] else [])) := by
  have hlen1 := full_output_cs_length true nde a
  have hlen2 := full_output_cs_length false nde a
  obtain ⟨k1, hk1, _, hm1, _⟩ := run_new true true nde md a s1 f1 hl h1 (by omega)
  obtain ⟨k2, hk2, _, hm2, _⟩ := run_new true false nde md a s2 f2 hl h2 (by omega)
  constructor
  · rw [hk1, Option.map_some', hm1]; rfl
  · rw [hk2, Option.map_some', hm2]; rfl

/-- C6 at a concrete input: the lines `"-----BEGIN"` and `"world"`. -/
theorem hash_ignores_escaping_witness :
    (run_filter 4 30 (text_filter_new true true false true)
        [(begin_line, false), (world_line, false)]).map (fun k => k.md) =
      some [45, 45, 45, 45, 45, 66, 69, 71, 73, 78, 119, 111, 114, 108, 100] ∧
    (run_filter 8192 30 (text_filter_new true false false true)
        [(begin_line, false), (world_line, false)]).map (fun k => k.md) =
      some [45, 45, 45, 45, 45, 66, 69, 71, 73, 78, 119, 111, 114, 108, 100] :=
  hash_ignores_escaping [(begin_line, false), (world_line, false)]
    (by simp [lines_ok, begin_line, world_line]) false true 4 8192 30 30
    (by decide) (by decide) (by decide) (by decide)

/-- C7, as stated, fails: on `"hello   \n"`, `"world"` in clearsign mode
with non-verbatim hashing and an ample buffer, the output is not
`"hello\r\nworld\n"` and the hash input is not `"hello\r\nworld\n"`. -/
theorem clearsign_scenario_counterexample :
    (run_filter 8192 3 (text_filter_new true false false true) hello_world).map
        (fun k => k.out) ≠
      some [104, 101, 108, 108, 111, 13, 10, 119, 111, 114, 108, 100, 10] ∧
    (run_filter 8192 3 (text_filter_new true false false true) hello_world).map
        (fun k => k.md) ≠
      some [104, 101, 108, 108, 111, 13, 10, 119, 111, 114, 108, 100, 10] := by
  decide

/-- C7, amended: on `"hello   \n"`, `"world"` in clearsign mode with
non-verbatim hashing, a hash handle and an ample buffer, the complete output
is `"hello   \nworld\n"` (the lines as they are, then the synthesized
line-feed) and the hash handle receives `"hello"`, CR, LF, `"world"` and no
final line-feed. -/
theorem clearsign_scenario :
    (run_filter 8192 3 (text_filter_new true false false true) hello_world).map
        (fun k => (k.out, k.md)) =
      some ([104, 101, 108, 108, 111, 32, 32, 32, 10, 119, 111, 114, 108, 100, 10],
        [104, 101, 108, 108, 111, 13, 10, 119, 111, 114, 108, 100]) :=
  rfl

/-- C8, at the failing input: the line `"a\0\n"` (the byte `a`, a NUL, a
line-feed), non-verbatim hashing with a hash handle. The specification
strips the trailing whitespace (space, tab, CR, LF) and expects the hash
input `"a\0"`; the code hashes `"a"` only, because `strchr` finds the NUL
byte in `" \t\r\n"`. -/
theorem hash_strips_nul :
    (run_filter 8192 3 (text_filter_new true false false true) [([97, 0, 10], false)]).map
        (fun k => k.md) = some [97] ∧
    spec_hash_line false [97, 0, 10] = [97, 0] ∧
    len_without_trailing_ws [97, 0, 10] 3 = 1 :=
  ⟨rfl, by decide, rfl⟩

/-- C9: idempotence of standard canonicalization. For every byte string `s`,
cut into lines at its line-feeds, standard mode run to the end-of-stream
signal (any capacity above 10) outputs `canon s`; run on `canon s` it outputs
`canon s` again; so `canon (canon s) = canon s`. -/
theorem standard_idempotent (s : List Nat) (ef nde md : Bool) (c1 c2 f1 f2 : Nat)
    (h1 : 10 < c1) (h2 : 10 < c2)
    (hf1 : (canon s).length < f1) (hf2 : (canon s).length < f2) :
    (run_filter c1 f1 (text_filter_new false ef nde md) (source_of s)).map
        (fun k => k.out) = some (canon s) ∧
    (run_filter c2 f2 (text_filter_new false ef nde md) (source_of (canon s))).map
        (fun k => k.out) = some (canon s) ∧
    canon (canon s) = canon s := by
  have hi := canon_idem s
  obtain ⟨k1, hk1, ho1, _⟩ :=
    run_new false ef nde md (source_of s) c1 f1 (source_of_lines_ok s) h1 hf1
  obtain ⟨k2, hk2, ho2, _⟩ :=
    run_new false ef nde md (source_of (canon s)) c2 f2 (source_of_lines_ok _) h2
      (by show (canon (canon s)).length < f2; rw [hi]; exact hf2)
  refine ⟨?_, ?_, hi⟩
  · rw [hk1, Option.map_some', ho1]; rfl
  · rw [hk2, Option.map_some', ho2]
    exact congrArg some hi

/-- C9 at a concrete input: `"hello   \nworld"` becomes `"hello\r\nworld"`,
which stays as it is. -/
theorem standard_idempotent_witness :
    (run_filter 11 13 (text_filter_new false false false false)
        (source_of hello_bytes)).map (fun k => k.out) =
      some [104, 101, 108, 108, 111, 13, 10, 119, 111, 114, 108, 100] ∧
    (run_filter 8192 13 (text_filter_new false false false false)
        (source_of [104, 101, 108, 108, 111, 13, 10, 119, 111, 114, 108, 100])).map
        (fun k => k.out) =
      some [104, 101, 108, 108, 111, 13, 10, 119, 111, 114, 108, 100] ∧
    canon [104, 101, 108, 108, 111, 13, 10, 119, 111, 114, 108, 100] =
      [104, 101, 108, 108, 111, 13, 10, 119, 111, 114, 108, 100] :=
  standard_idempotent hello_bytes false false false 11 8192 13 13 (by decide) (by decide)
    (by decide) (by decide)

/-- C10, as stated, fails: a clearsign call with capacity 100 on the single
line `"a"` meets end-of-stream after bytes were produced and returns them
with result 0, but the next call, made with capacity 3 (which passes the
assertion `size > 2`), returns 0 with zero bytes and not the sentinel -1. -/
theorem next_call_capacity_three :
    text_filter (text_filter_new true false false true) .IOBUFCTRL_UNDERFLOW
        [([97], false)] 100 = some one_line_call ∧
    one_line_call.eof = true ∧ one_line_call.rc = 0 ∧ one_line_call.buf = [97, 10] ∧
    text_filter one_line_call.tfx .IOBUFCTRL_UNDERFLOW one_line_call.a 3 =
      some ⟨0, [], 0, one_line_call.tfx, [], [], false⟩ :=
  ⟨rfl, rfl, rfl, rfl, rfl⟩

/-- C10, amended: a produce-data call with a capacity that passes the
assertion (any context, any source) returns, and returns only 0 or -1; it
returns -1 exactly when the line source reported end-of-stream during the
call and the call produced zero bytes; when end-of-stream is met and bytes
were produced, the result is 0; and after a call that met end-of-stream, if
the source goes on reporting end-of-stream, the next call with a capacity
that leaves room (above 10 in standard mode, above 3 in clearsign mode)
returns -1 with zero bytes. -/
theorem underflow_return_code (tfx : text_filter_context_t) (a : IOBUF) (size : Nat)
    (hs : if tfx.clearsign then 2 < size else 10 < size) :
    ∃ r, text_filter tfx .IOBUFCTRL_UNDERFLOW a size = some r ∧
      (r.rc = 0 ∨ r.rc = -1) ∧
      (r.rc = -1 ↔ (r.eof = true ∧ r.buf = [])) ∧
      (r.eof = true → r.buf ≠ [] → r.rc = 0) ∧
      (r.eof = true → next_read_eof r.a →
        ∀ size2 : Nat, (if tfx.clearsign then 3 < size2 else 10 < size2) →
          ∃ r2, text_filter r.tfx .IOBUFCTRL_UNDERFLOW r.a size2 = some r2 ∧
            r2.rc = -1 ∧ r2.buf = [] ∧ r2.ret_len = 0) := by
  obtain ⟨r, h⟩ := text_filter_returns tfx a size hs
  have g := text_filter_rc tfx a size r h
  refine ⟨r, h, g.rc01, g.neg, ?_, ?_⟩
  · intro he hb
    rcases g.rc01 with h0 | h1
    · exact h0
    · exact absurd (g.neg.mp h1).2 hb
  · intro he ha size2 hs2
    obtain ⟨hl, hp⟩ := g.eof_cache he
    apply next_call_eof r.tfx r.a size2 _ ha hl hp
    · intro hcs
      rw [g.mode] at hcs
      exact g.eof_flags he hcs
    · rw [g.mode]
      exact hs2

/-- C10 amended, at a concrete call: the first call (capacity 100) of a
fresh clearsign filter on the single line `"a"`. -/
theorem underflow_return_code_witness :
    ∃ r, text_filter (text_filter_new true false false true) .IOBUFCTRL_UNDERFLOW
        [([97], false)] 100 = some r ∧
      (r.rc = 0 ∨ r.rc = -1) ∧
      (r.rc = -1 ↔ (r.eof = true ∧ r.buf = [])) ∧
      (r.eof = true → r.buf ≠ [] → r.rc = 0) ∧
      (r.eof = true → next_read_eof r.a →
        ∀ size2 : Nat,
          (if (text_filter_new true false false true).clearsign then 3 < size2
            else 10 < size2) →
          ∃ r2, text_filter r.tfx .IOBUFCTRL_UNDERFLOW r.a size2 = some r2 ∧
            r2.rc = -1 ∧ r2.buf = [] ∧ r2.ret_len = 0) :=
  underflow_return_code (text_filter_new true false false true) [([97], false)] 100
    (by decide)

/-- C11, at the failing input: the two bytes `'a'`, NUL with `len` = 2. The
last byte is none of space, tab, CR, LF, so the specification has the result
`len` = 2 (no trailing whitespace); the code returns 1, because `strchr`
finds the NUL byte in `" \t\r\n"` and the loop marks it as whitespace. -/
theorem len_without_trailing_ws_nul :
    len_without_trailing_ws [97, 0] 2 = 1 ∧
    is_ws 0 = false ∧
    (([97, 0] : List Nat).rdropWhile is_ws).length = 2 ∧
    strchr ws_chars 0 = true :=
  ⟨rfl, rfl, by decide, rfl⟩

/-- C12, as stated, fails: the counter is a C `int`. In a standard-mode
context whose counter is `INT_MAX`, one call that reads one truncated line
executes `truncated++` once and leaves the counter at `INT_MIN`, not at
`INT_MAX` plus the one truncated read. -/
theorem counter_overflow :
    full_counter_context.truncated = INT_MAX ∧
    trunc_count [([97, 10], true)] = 1 ∧
    (after_calls [100] full_counter_context [([97, 10], true)]).2 = [] ∧
    (after_calls [100] full_counter_context [([97, 10], true)]).1.truncated = INT_MIN ∧
    INT_MIN ≠ INT_MAX + 1 :=
  ⟨rfl, rfl, rfl, rfl, by decide⟩

/-- C12, amended: truncation counting, in both modes and over any sequence
of produce-data calls (one for each capacity of `sizes`), from any context
and any source, as long as the counter stays in the range of a C `int` (it
starts at `INT_MIN` or above, and with all truncated reads of the source it
does not pass `INT_MAX`). The reads made by the calls are a leading part
`pre` of the source, and the counter grows by the number of reads of `pre`
in which the source zeroed the max-length parameter. With no read flagged as
truncated, every call has the same return code, the same output bytes and
the same hashed bytes, and the calls end in the same context and source
apart from the counter and the flags. -/
theorem truncation_counting (sizes : List Nat) (tfx : text_filter_context_t)
    (a : IOBUF) (hlo : INT_MIN ≤ tfx.truncated)
    (hhi : tfx.truncated + (a.countP (fun e => e.2) : Nat) ≤ INT_MAX) :
    (∃ pre, a = pre ++ (after_calls sizes tfx a).2 ∧
      (after_calls sizes tfx a).1.truncated =
        tfx.truncated + (pre.countP (fun e => e.2) : Nat)) ∧
    call_seq sizes (clear_truncated tfx) (untrunc a) = call_seq sizes tfx a ∧
    after_calls sizes (clear_truncated tfx) (untrunc a) =
      (clear_truncated (after_calls sizes tfx a).1,
        untrunc (after_calls sizes tfx a).2) := by
  refine ⟨?_, (call_seq_untrunc sizes tfx a).1, (call_seq_untrunc sizes tfx a).2⟩
  obtain ⟨pre, hpre, htr⟩ := after_calls_reads sizes tfx a
  refine ⟨pre, hpre, ?_⟩
  have hcount : trunc_count a =
      trunc_count pre + trunc_count (after_calls sizes tfx a).2 := by
    conv_lhs => rw [hpre]
    exact trunc_count_append _ _
  have hle : tfx.truncated + (trunc_count pre : Nat) ≤ INT_MAX := by
    have h1 : tfx.truncated + (trunc_count a : Nat) ≤ INT_MAX := hhi
    rw [hcount] at h1
    push_cast at h1
    have h2 : (0 : Int) ≤ (trunc_count (after_calls sizes tfx a).2 : Nat) :=
      Int.ofNat_nonneg _
    omega
  rw [htr]
  exact incr_times_in_range (trunc_count pre) tfx.truncated hlo hle

/-- C12 amended, at a concrete input: the clearsign context in the middle
of a line whose counter is 2, two calls with capacity 5, and a source of two
lines, the first of them truncated. -/
theorem truncation_counting_witness :
    (∃ pre, [(world_line, true), (begin_line, false)] =
        pre ++ (after_calls [5, 5] mid_line_context
          [(world_line, true), (begin_line, false)]).2 ∧
      (after_calls [5, 5] mid_line_context
          [(world_line, true), (begin_line, false)]).1.truncated =
        mid_line_context.truncated + (pre.countP (fun e => e.2) : Nat)) ∧
    call_seq [5, 5] (clear_truncated mid_line_context)
        (untrunc [(world_line, true), (begin_line, false)]) =
      call_seq [5, 5] mid_line_context [(world_line, true), (begin_line, false)] ∧
    after_calls [5, 5] (clear_truncated mid_line_context)
        (untrunc [(world_line, true), (begin_line, false)]) =
      (clear_truncated (after_calls [5, 5] mid_line_context
          [(world_line, true), (begin_line, false)]).1,
        untrunc (after_calls [5, 5] mid_line_context
          [(world_line, true), (begin_line, false)]).2) :=
  truncation_counting [5, 5] mid_line_context [(world_line, true), (begin_line, false)]
    (by decide) (by decide)

/-- C13: output bounds. For every context and every source, a produce-data
call whose capacity passes the assertion (above 10 in standard mode, above 2
in clearsign mode) writes `buf[0 .. len)` with `len` at most capacity - 2,
so only offsets below capacity - 2 (and below the capacity) are written, and
the count stored in `*ret_len` is the number of bytes written. -/
theorem output_bounds (tfx : text_filter_context_t) (a : IOBUF) (size : Nat)
    (hs : if tfx.clearsign then 2 < size else 10 < size) :
    ∃ r, text_filter tfx .IOBUFCTRL_UNDERFLOW a size = some r ∧
      r.buf.length ≤ size - 2 ∧ r.buf.length < size ∧ r.ret_len = r.buf.length := by
  obtain ⟨r, h⟩ := text_filter_returns tfx a size hs
  have g := text_filter_facts tfx a size r h
  have hw := g.within
  simp only [List.length_nil, Nat.zero_le, max_eq_right] at hw
  have hpos : 2 < size := by
    cases hcs : tfx.clearsign
    · rw [hcs] at hs
      have : 10 < size := hs
      omega
    · rw [hcs] at hs
      exact hs
  exact ⟨r, h, hw, by omega, g.count⟩

/-- C13 at a concrete call: clearsign with capacity 4 on the line
`"-----BEGIN"`, where the call writes the two bytes of the escape. -/
theorem output_bounds_witness :
    ∃ r, text_filter (text_filter_new true false false true) .IOBUFCTRL_UNDERFLOW
        [(begin_line, false)] 4 = some r ∧
      r.buf.length ≤ 4 - 2 ∧ r.buf.length < 4 ∧ r.ret_len = r.buf.length :=
  output_bounds (text_filter_new true false false true) [(begin_line, false)] 4
    (by decide)

/-- C14, at the failing input: clearsign mode, no hash handle,
not_dash_escaped on, the single line `"world"` without a line-feed. The
fetched line is not hashed (line 155 tests the handle), but the call that
reaches end-of-stream hands a line-feed to `md_putc` (line 148 does not test
the handle). -/
theorem absent_sink_putc :
    (run_filter 100 3 (text_filter_new true false true false)
        [(world_line, false)]).map (fun k => (k.out, k.md)) =
      some ([119, 111, 114, 108, 100, 10], [10]) ∧
    (text_filter (text_filter_new true false true false) .IOBUFCTRL_UNDERFLOW
        [] 100).map (fun r => (r.rc, r.buf, r.md)) = some (0, [10], [10]) :=
  ⟨rfl, rfl⟩

/-- C15: the line cache invariant. If `buffer_pos ≤ buffer_len` holds before
a produce-data call (any mode, any source, any capacity that passes the
assertion), it holds after the call. Every refill sets `buffer_pos` to 0 and
`buffer_len` to the number of bytes read; in standard mode a line of at
least one byte then gets the length of the trimmed line, plus 2 when the
line ended in a line-feed; in clearsign mode the length stays the number of
bytes read. -/
theorem line_cache_invariant (tfx : text_filter_context_t) (a : IOBUF) (size : Nat)
    (hs : if tfx.clearsign then 2 < size else 10 < size)
    (hc : tfx.buffer_pos ≤ tfx.buffer_len) :
    (∃ r, text_filter tfx .IOBUFCTRL_UNDERFLOW a size = some r ∧
      r.tfx.buffer_pos ≤ r.tfx.buffer_len) ∧
    (∀ (line : List Nat) (trunc : Bool),
      (read_line tfx line trunc).buffer_pos = 0 ∧
      (read_line tfx line trunc).buffer_len = line.length ∧
      (clearsign_flags (read_line tfx line trunc)).buffer_pos = 0 ∧
      (clearsign_flags (read_line tfx line trunc)).buffer_len = line.length ∧
      (line ≠ [] →
        (standard_fix_line (read_line tfx line trunc)).buffer_pos = 0 ∧
        (standard_fix_line (read_line tfx line trunc)).buffer_len =
          trim_trailing_ws line line.length +
            (if line.getLast? = some 10 then 2 else 0))) := by
  obtain ⟨r, h⟩ := text_filter_returns tfx a size hs
  refine ⟨⟨r, h, (text_filter_facts tfx a size r h).cursor hc⟩, ?_⟩
  intro line trunc
  obtain ⟨_, hp, hl, _⟩ := clearsign_flags_frame (read_line tfx line trunc)
  exact ⟨rfl, rfl, hp, hl, standard_refill tfx line trunc⟩

/-- C15 at a concrete call: the context in the middle of the line `"-ab\n"`
(cursor 1, length 4), capacity 5, one more line to come. -/
theorem line_cache_invariant_witness :
    (∃ r, text_filter mid_line_context .IOBUFCTRL_UNDERFLOW [(world_line, true)] 5 =
        some r ∧
      r.tfx.buffer_pos ≤ r.tfx.buffer_len) ∧
    (∀ (line : List Nat) (trunc : Bool),
      (read_line mid_line_context line trunc).buffer_pos = 0 ∧
      (read_line mid_line_context line trunc).buffer_len = line.length ∧
      (clearsign_flags (read_line mid_line_context line trunc)).buffer_pos = 0 ∧
      (clearsign_flags (read_line mid_line_context line trunc)).buffer_len = line.length ∧
      (line ≠ [] →
        (standard_fix_line (read_line mid_line_context line trunc)).buffer_pos = 0 ∧
        (standard_fix_line (read_line mid_line_context line trunc)).buffer_len =
          trim_trailing_ws line line.length +
            (if line.getLast? = some 10 then 2 else 0))) :=
  line_cache_invariant mid_line_context [(world_line, true)] 5 (by decide) (by decide)

/-- C16: standard mode is stateless apart from the line cache. A
produce-data call in standard mode (any context with the clearsign flag off,
any source, any capacity above 10) hands no byte to the hash handle and
leaves pending_esc, pending_lf, escape_from, not_dash_escaped, the hash
handle and the mode flag as they were: the context after the call is the
context before it with only `buffer`, `buffer_len`, `buffer_pos` and
`truncated` replaced. -/
theorem standard_frame (tfx : text_filter_context_t) (a : IOBUF) (size : Nat)
    (hcs : tfx.clearsign = false) (hs : 10 < size) :
    ∃ r, text_filter tfx .IOBUFCTRL_UNDERFLOW a size = some r ∧
      r.md = [] ∧
      r.tfx.pending_esc = tfx.pending_esc ∧ r.tfx.pending_lf = tfx.pending_lf ∧
      r.tfx.escape_from = tfx.escape_from ∧
      r.tfx.not_dash_escaped = tfx.not_dash_escaped ∧
      r.tfx.clearsign = tfx.clearsign ∧ r.tfx.md = tfx.md ∧
      r.tfx = { tfx with buffer := r.tfx.buffer, buffer_len := r.tfx.buffer_len,
                         buffer_pos := r.tfx.buffer_pos,
                         truncated := r.tfx.truncated } := by
  obtain ⟨hmd, h1, h2, h3, h4, h5, h6⟩ := standard_loop_frame (size - 2) a tfx []
  refine ⟨_, standard_returns tfx a size hcs hs, hmd, h6, h5, h2, h3, h1, h4, ?_⟩
  generalize (standard_loop (size - 2) a tfx []).tfx = t at h1 h2 h3 h4 h5 h6
  cases t
  cases tfx
  simp only at h1 h2 h3 h4 h5 h6
  simp only [h1, h2, h3, h4, h5, h6]

/-- C16 at a concrete call: a standard-mode context with all unused flags
on, capacity 11, one line to come. -/
theorem standard_frame_witness :
    ∃ r, text_filter std_mid_context .IOBUFCTRL_UNDERFLOW [(hello_bytes, true)] 11 =
        some r ∧
      r.md = [] ∧
      r.tfx.pending_esc = std_mid_context.pending_esc ∧
      r.tfx.pending_lf = std_mid_context.pending_lf ∧
      r.tfx.escape_from = std_mid_context.escape_from ∧
      r.tfx.not_dash_escaped = std_mid_context.not_dash_escaped ∧
      r.tfx.clearsign = std_mid_context.clearsign ∧ r.tfx.md = std_mid_context.md ∧
      r.tfx = { std_mid_context with buffer := r.tfx.buffer,
                                     buffer_len := r.tfx.buffer_len,
                                     buffer_pos := r.tfx.buffer_pos,
                                     truncated := r.tfx.truncated } :=
  standard_frame std_mid_context [(hello_bytes, true)] 11 rfl (by decide)

/-- C17: the escape is never separated from its line. For every clearsign
produce-data call with capacity above 3, whatever the context and the source
at entry, `pending_esc` is off when the call returns. Hence (for a cache that
holds what it claims and a source whose reads before the end return bytes)
what is still owed after the call starts with the unread bytes of the cache
and not with an escape: the `"- "` of every line fetched by the call is in
the bytes the call returned. -/
theorem escape_never_pending (tfx : text_filter_context_t) (a : IOBUF) (size : Nat)
    (hcs : tfx.clearsign = true) (hs : 3 < size) :
    ∃ r, text_filter tfx .IOBUFCTRL_UNDERFLOW a size = some r ∧
      r.tfx.pending_esc = false ∧
      (cache_ok tfx → lines_ok a →
        r.buf ++ (cache_rest r.tfx ++
          (cs_text tfx.escape_from tfx.not_dash_escaped r.a ++
            (if last_lf r.tfx.pending_lf r.a then [] else [10]))) =
          cs_pending tfx a) := by
  have hret := clearsign_returns tfx a size hcs (by omega)
  have hesc := clearsign_loop_esc (size - 3) a tfx [] []
    (by simp only [List.length_nil]; omega)
  refine ⟨_, hret, hesc, ?_⟩
  intro hc hl
  have g := clearsign_loop_good (size - 3) (by omega) a tfx [] [] hc hl
  have ho := g.out_eq
  simp only [List.nil_append] at ho
  rw [← ho]
  simp only [cs_pending, hesc, Bool.false_eq_true, if_false, List.nil_append,
    g.config.2.1, g.config.2.2.1]

/-- C17 at a concrete call: capacity 4 on the line `"-----BEGIN"`; the call
fetches the line and returns with its escape written. -/
theorem escape_never_pending_witness :
    ∃ r, text_filter (text_filter_new true false false true) .IOBUFCTRL_UNDERFLOW
        [(begin_line, false)] 4 = some r ∧
      r.tfx.pending_esc = false ∧
      (cache_ok (text_filter_new true false false true) →
        lines_ok [(begin_line, false)] →
        r.buf ++ (cache_rest r.tfx ++
          (cs_text (text_filter_new true false false true).escape_from
              (text_filter_new true false false true).not_dash_escaped r.a ++
            (if last_lf r.tfx.pending_lf r.a then [] else [10]))) =
          cs_pending (text_filter_new true false false true) [(begin_line, false)]) :=
  escape_never_pending (text_filter_new true false false true) [(begin_line, false)] 4
    rfl (by decide)

/-- C18: verbatim mode hashes exactly what it outputs. In clearsign mode
with not_dash_escaped on, a hash handle, a fresh context and a capacity above
3, for every sequence of source lines the bytes handed to the hash handle up
to the end-of-stream signal are the output bytes: the source lines as they
are, then the synthesized line-feed when one is emitted. -/
theorem verbatim_hash_is_output (a : IOBUF) (hl : lines_ok a) (ef : Bool)
    (size fuel : Nat) (hs : 3 < size)
    (hf : (a.flatMap (fun e => e.1)).length + 1 < fuel) :
    ∃ k, run_filter size fuel (text_filter_new true ef true true) a = some k ∧
      k.md = k.out ∧
      k.out = a.flatMap (fun e => e.1) ++ (if needs_final_lf a then [10] else []) := by
  have hlen := full_output_cs_length ef true a
  rw [cs_text_verbatim] at hlen
  obtain ⟨k, hk, ho, hm, _⟩ := run_new true ef true true a size fuel hl hs (by omega)
  have ho2 : k.out = a.flatMap (fun e => e.1) ++
      (if needs_final_lf a then [10] else []) := by
    rw [ho]
    simp only [full_output, if_true, cs_text_verbatim]
  refine ⟨k, hk, ?_, ho2⟩
  rw [ho2, hm]
  simp only [full_md, if_true, cs_hash_lines_verbatim, Bool.and_true]

/-- C18 at a concrete input: `"hello   \n"`, `"world"` with capacity 4. -/
theorem verbatim_hash_is_output_witness :
    ∃ k, run_filter 4 16 (text_filter_new true true true true) hello_world = some k ∧
      k.md = k.out ∧
      k.out = hello_world.flatMap (fun e => e.1) ++
        (if needs_final_lf hello_world then [10] else []) :=
  verbatim_hash_is_output hello_world (by simp [lines_ok, hello_world]) true 4 16
    (by decide) (by decide)

/-- C19: progress. A produce-data call in standard mode with capacity above
10, or in clearsign mode with capacity above 3, whatever the context and the
source, returns 0 or -1 and never returns 0 with zero bytes. Consequently,
for a cache that holds what it claims and a finite sequence of source lines,
repeated calls reach the end-of-stream signal: any number of calls above the
number of bytes still owed is enough. -/
theorem produce_data_progress (tfx : text_filter_context_t) (a : IOBUF) (size : Nat)
    (hs : if tfx.clearsign then 3 < size else 10 < size) :
    (∃ r, text_filter tfx .IOBUFCTRL_UNDERFLOW a size = some r ∧
      (r.rc = 0 ∨ r.rc = -1) ∧ (r.rc = 0 → r.buf ≠ [])) ∧
    (cache_ok tfx → lines_ok a → ∀ fuel, (pending_out tfx a).length < fuel →
      ∃ k, run_filter size fuel tfx a = some k) := by
  have hs2 : if tfx.clearsign then 2 < size else 10 < size := by
    cases hcs : tfx.clearsign
    · rw [hcs] at hs; exact hs
    · rw [hcs] at hs
      have : 3 < size := hs
      show 2 < size
      omega
  have hpos : 0 < (if tfx.clearsign then size - 3 else size - 2) := by
    cases hcs : tfx.clearsign
    · rw [hcs] at hs
      have : 10 < size := hs
      show 0 < size - 2
      omega
    · rw [hcs] at hs
      have : 3 < size := hs
      show 0 < size - 3
      omega
  obtain ⟨r, h⟩ := text_filter_returns tfx a size hs2
  refine ⟨⟨r, h, (text_filter_rc tfx a size r h).rc01,
    (text_filter_facts tfx a size r h).progress hpos⟩, ?_⟩
  intro hc hl fuel hf
  obtain ⟨k, hk, _⟩ := run_filter_good size fuel tfx a hc hl hs hf
  exact ⟨k, hk⟩

/-- C19 at a concrete input: a fresh clearsign filter with capacity 4 on
`"hello   \n"`, `"world"`. -/
theorem produce_data_progress_witness :
    (∃ r, text_filter (text_filter_new true false false true) .IOBUFCTRL_UNDERFLOW
        hello_world 4 = some r ∧
      (r.rc = 0 ∨ r.rc = -1) ∧ (r.rc = 0 → r.buf ≠ [])) ∧
    (cache_ok (text_filter_new true false false true) → lines_ok hello_world →
      ∀ fuel, (pending_out (text_filter_new true false false true) hello_world).length <
          fuel →
        ∃ k, run_filter 4 fuel (text_filter_new true false false true) hello_world =
          some k) :=
  produce_data_progress (text_filter_new true false false true) hello_world 4 (by decide)

/-- C20: clearsign at the capacity floor. A clearsign produce-data call
with capacity exactly 3, for every context and every source, returns 0 with
zero bytes, reads nothing from the source, hands nothing to the hash handle
and leaves the whole context as it was. -/
theorem clearsign_capacity_floor (tfx : text_filter_context_t) (a : IOBUF)
    (hcs : tfx.clearsign = true) :
    text_filter tfx .IOBUFCTRL_UNDERFLOW a 3 = some ⟨0, [], 0, tfx, a, [], false⟩ := by
  rw [clearsign_returns tfx a 3 hcs (by decide)]
  cases a with
  | nil => rfl
  | cons e rest => rfl

/-- C20 at a concrete call: a context in the middle of a line with bytes
left in the cache, and a source with one more line. -/
theorem clearsign_capacity_floor_witness :
    text_filter mid_line_context .IOBUFCTRL_UNDERFLOW [(world_line, false)] 3 =
      some ⟨0, [], 0, mid_line_context, [(world_line, false)], [], false⟩ :=
  clearsign_capacity_floor mid_line_context [(world_line, false)] rfl

end TextFilter
